import Mathlib

/-!
# Verification of MyFileDiff

Shallow embedding of the MyFileDiff side-by-side file comparison tool.

The program's aligner is `difflib.SequenceMatcher(None, lines1, lines2).get_opcodes()`
(called from `FileDiffViewer.get_diff_opcodes` / `FileDiffGUI.get_diff_opcodes`).
We embed the CPython `difflib` sequence matcher faithfully:
`__chain_b` (with `isjunk = None`, so the junk set is empty, and the default
`autojunk = True` popularity filter), `find_longest_match` (the j2len dynamic
programming loop over rows plus the four extension loops), `get_matching_blocks`
(the work queue, the lexicographic sort, the adjacent-block merge, and the
trailing sentinel) and `get_opcodes`.

On top of that we embed the CLI renderer (`FileDiffViewer.display_diff`,
`truncate_line`, `print_side_by_side`), the GUI renderer
(`FileDiffGUI.display_diff`'s text-widget inserts with their tags), the
file-reading error handling (`read_file` plus the `try/except` at the
comparison boundary) and the `main` argument dispatch.

Iteration counts of while loops are bounded by explicit fuel arguments that
are always sufficient (each loop decreases a natural-number measure), keeping
every definition executable by kernel reduction.
-/

namespace MyFileDiff

/-- A matching block of `difflib.SequenceMatcher`: `a[i:i+size] == b[j:j+size]`. -/
structure Match where
  i : Nat
  j : Nat
  size : Nat
deriving DecidableEq, Repr

/-- Opcode tag of `difflib`: one of `equal`, `replace`, `delete`, `insert`. -/
inductive Tag where
  | equal
  | replace
  | delete
  | insert
deriving DecidableEq, Repr

/-- One opcode `(tag, i1, i2, j1, j2)` as returned by `get_opcodes`. -/
structure Opcode where
  tag : Tag
  i1 : Nat
  i2 : Nat
  j1 : Nat
  j2 : Nat
deriving DecidableEq, Repr

/-- Number of occurrences of line `x` in `b` (the length of `b2j[x]` before purging). -/
def countOcc (b : List String) (x : String) : Nat :=
  (b.filter (fun y => y == x)).length

/-- The `autojunk` popularity test of `SequenceMatcher.__chain_b`: with the default
`autojunk=True`, when `len(b) >= 200` an element occurring more than
`len(b) // 100 + 1` times is purged from `b2j`.  (`isjunk` is `None` in
MyFileDiff, so the junk purge is skipped and `bjunk` stays empty.) -/
def isPopular (b : List String) (x : String) : Bool :=
  decide (200 ≤ b.length) && decide (b.length / 100 + 1 < countOcc b x)

/-- `b2j[x]`: ascending list of positions `j` with `b[j] == x`, after the
`autojunk` purge of popular elements. -/
def b2jList (b : List String) (x : String) : List Nat :=
  if isPopular b x then []
  else (List.range b.length).filter (fun j => b.getD j "" == x)

/-- The inner loop of `find_longest_match` over `b2j.get(a[i], nothing)`:
skips `j < blo` (`continue`), stops at `j >= bhi` (`break`; the position lists
are ascending), and otherwise sets `newj2len[j] = j2len.get(j-1, 0) + 1`,
updating the running best on strict improvement (`besti, bestj, bestsize =
i-k+1, j-k+1, k`). -/
def innerLoop (blo bhi i : Nat) (old : Nat → Nat) :
    List Nat → (Nat → Nat) → Match → ((Nat → Nat) × Match)
  | [], new, best => (new, best)
  | j :: js, new, best =>
    if j < blo then innerLoop blo bhi i old js new best
    else if bhi ≤ j then (new, best)
    else
      let k := (if j = 0 then 0 else old (j - 1)) + 1
      let new2 : Nat → Nat := fun x => if x = j then k else new x
      let best2 : Match := if best.size < k then ⟨i + 1 - k, j + 1 - k, k⟩ else best
      innerLoop blo bhi i old js new2 best2

/-- The outer loop of `find_longest_match` over rows `i in range(alo, ahi)`:
each row starts a fresh `newj2len` and reads the previous row's `j2len`. -/
def rowLoop (a : List String) (b2j : String → List Nat) (blo bhi : Nat) :
    List Nat → (Nat → Nat) → Match → ((Nat → Nat) × Match)
  | [], j2len, best => (j2len, best)
  | i :: is, j2len, best =>
    let p := innerLoop blo bhi i j2len (b2j (a.getD i "")) (fun _ => 0) best
    rowLoop a b2j blo bhi is p.1 p.2

/-- First extension loop of `find_longest_match`: extend the best block
downwards over non-junk equal elements.  Fuel bounds the iteration count;
each iteration requires `alo < besti` and decrements `besti`, so fuel
`besti` always suffices. -/
def extendLo (a b : List String) (bjunk : String → Bool) (alo blo : Nat) :
    Nat → Match → Match
  | 0, m => m
  | f + 1, m =>
    if alo < m.i && blo < m.j && !bjunk (b.getD (m.j - 1) "") &&
        (a.getD (m.i - 1) "" == b.getD (m.j - 1) "") then
      extendLo a b bjunk alo blo f ⟨m.i - 1, m.j - 1, m.size + 1⟩
    else m

/-- Second extension loop: extend the best block upwards over non-junk equal
elements.  Each iteration requires `besti + bestsize < ahi`, so fuel `ahi`
always suffices. -/
def extendHi (a b : List String) (bjunk : String → Bool) (ahi bhi : Nat) :
    Nat → Match → Match
  | 0, m => m
  | f + 1, m =>
    if m.i + m.size < ahi && m.j + m.size < bhi && !bjunk (b.getD (m.j + m.size) "") &&
        (a.getD (m.i + m.size) "" == b.getD (m.j + m.size) "") then
      extendHi a b bjunk ahi bhi f ⟨m.i, m.j, m.size + 1⟩
    else m

/-- Third extension loop: extend downwards over junk elements. -/
def extendLoJunk (a b : List String) (bjunk : String → Bool) (alo blo : Nat) :
    Nat → Match → Match
  | 0, m => m
  | f + 1, m =>
    if alo < m.i && blo < m.j && bjunk (b.getD (m.j - 1) "") &&
        (a.getD (m.i - 1) "" == b.getD (m.j - 1) "") then
      extendLoJunk a b bjunk alo blo f ⟨m.i - 1, m.j - 1, m.size + 1⟩
    else m

/-- Fourth extension loop: extend upwards over junk elements. -/
def extendHiJunk (a b : List String) (bjunk : String → Bool) (ahi bhi : Nat) :
    Nat → Match → Match
  | 0, m => m
  | f + 1, m =>
    if m.i + m.size < ahi && m.j + m.size < bhi && bjunk (b.getD (m.j + m.size) "") &&
        (a.getD (m.i + m.size) "" == b.getD (m.j + m.size) "") then
      extendHiJunk a b bjunk ahi bhi f ⟨m.i, m.j, m.size + 1⟩
    else m

/-- `SequenceMatcher.find_longest_match(alo, ahi, blo, bhi)`: the j2len
dynamic program over rows `range(alo, ahi)` starting from `(alo, blo, 0)`,
followed by the four extension loops. -/
def findLongestMatch (a b : List String) (b2j : String → List Nat)
    (bjunk : String → Bool) (alo ahi blo bhi : Nat) : Match :=
  let p := rowLoop a b2j blo bhi (List.range' alo (ahi - alo)) (fun _ => 0) ⟨alo, blo, 0⟩
  let m1 := extendLo a b bjunk alo blo p.2.i p.2
  let m2 := extendHi a b bjunk ahi bhi ahi m1
  let m3 := extendLoJunk a b bjunk alo blo m2.i m2
  extendHiJunk a b bjunk ahi bhi ahi m3

/-- A rectangle `[alo, ahi) × [blo, bhi)` on the work queue of
`get_matching_blocks`. -/
structure Rangeq where
  alo : Nat
  ahi : Nat
  blo : Nat
  bhi : Nat
deriving DecidableEq, Repr

/-- Fuel measure for the `get_matching_blocks` queue loop: each pop strictly
decreases this sum. -/
def measureQ (q : List Rangeq) : Nat :=
  (q.map (fun r => r.ahi - r.alo + (r.bhi - r.blo) + 1)).sum

/-- The work-queue loop of `get_matching_blocks`.  Python pops from the end of
`queue` and appends the left sub-range then the right sub-range; we keep the
queue reversed (head = next pop), so pushing puts the right sub-range in
front of the left one. -/
def processQueue (a b : List String) (b2j : String → List Nat) :
    Nat → List Rangeq → List Match
  | 0, _ => []
  | _ + 1, [] => []
  | fuel + 1, r :: rest =>
    let m := findLongestMatch a b b2j (fun _ => false) r.alo r.ahi r.blo r.bhi
    if m.size ≠ 0 then
      let q1 := if r.alo < m.i ∧ r.blo < m.j then Rangeq.mk r.alo m.i r.blo m.j :: rest else rest
      let q2 := if m.i + m.size < r.ahi ∧ m.j + m.size < r.bhi then
          Rangeq.mk (m.i + m.size) r.ahi (m.j + m.size) r.bhi :: q1 else q1
      m :: processQueue a b b2j fuel q2
    else
      processQueue a b b2j fuel rest

/-- Lexicographic order on matching blocks, as used by Python's
`matching_blocks.sort()` on `(i, j, size)` tuples. -/
def matchLe (x y : Match) : Prop :=
  x.i < y.i ∨ (x.i = y.i ∧ (x.j < y.j ∨ (x.j = y.j ∧ x.size ≤ y.size)))

instance : DecidableRel matchLe := fun x y => by
  unfold matchLe; infer_instance

instance : IsTotal Match matchLe where
  total x y := by
    unfold matchLe
    rcases Nat.lt_trichotomy x.i y.i with h | h | h
    · exact Or.inl (Or.inl h)
    · rcases Nat.lt_trichotomy x.j y.j with h2 | h2 | h2
      · exact Or.inl (Or.inr ⟨h, Or.inl h2⟩)
      · rcases Nat.le_total x.size y.size with h3 | h3
        · exact Or.inl (Or.inr ⟨h, Or.inr ⟨h2, h3⟩⟩)
        · exact Or.inr (Or.inr ⟨h.symm, Or.inr ⟨h2.symm, h3⟩⟩)
      · exact Or.inr (Or.inr ⟨h.symm, Or.inl h2⟩)
    · exact Or.inr (Or.inl h)

instance : IsTrans Match matchLe where
  trans x y z hxy hyz := by
    unfold matchLe at *
    rcases hxy with h1 | ⟨e1, h1⟩
    · rcases hyz with h2 | ⟨e2, _⟩
      · exact Or.inl (h1.trans h2)
      · exact Or.inl (e2 ▸ h1)
    · rcases hyz with h2 | ⟨e2, h2⟩
      · exact Or.inl (e1 ▸ h2)
      · refine Or.inr ⟨e1.trans e2, ?_⟩
        rcases h1 with h1 | ⟨f1, h1⟩
        · rcases h2 with h2 | ⟨f2, _⟩
          · exact Or.inl (h1.trans h2)
          · exact Or.inl (f2 ▸ h1)
        · rcases h2 with h2 | ⟨f2, h2⟩
          · exact Or.inl (f1 ▸ h2)
          · exact Or.inr ⟨f1.trans f2, h1.trans h2⟩

/-- The adjacent-block merge of `get_matching_blocks`: running accumulator
`(i1, j1, k1)` starting at `(0, 0, 0)`; an exactly adjacent block is folded
into the accumulator, otherwise the accumulator (if nonzero) is emitted. -/
def collapseAux (i1 j1 k1 : Nat) : List Match → List Match
  | [] => if k1 ≠ 0 then [⟨i1, j1, k1⟩] else []
  | m :: ms =>
    if i1 + k1 = m.i ∧ j1 + k1 = m.j then collapseAux i1 j1 (k1 + m.size) ms
    else (if k1 ≠ 0 then [⟨i1, j1, k1⟩] else []) ++ collapseAux m.i m.j m.size ms

/-- `SequenceMatcher.get_matching_blocks()`: queue loop, lexicographic sort,
adjacent merge, and the trailing sentinel `(la, lb, 0)`. -/
def getMatchingBlocks (a b : List String) : List Match :=
  let blocks := processQueue a b (b2jList b) (a.length + b.length + 1)
      [⟨0, a.length, 0, b.length⟩]
  collapseAux 0 0 0 (List.insertionSort matchLe blocks) ++ [⟨a.length, b.length, 0⟩]

/-- The opcode-emitting loop of `get_opcodes`: running `(i, j)` starting at
`(0, 0)`; each block first yields a gap opcode (`replace`, `delete` or
`insert`) when there is a gap, then an `equal` opcode when `size` is nonzero. -/
def opcodesLoop : Nat → Nat → List Match → List Opcode
  | _, _, [] => []
  | i, j, m :: ms =>
    let gap : List Opcode :=
      if i < m.i ∧ j < m.j then [⟨Tag.replace, i, m.i, j, m.j⟩]
      else if i < m.i then [⟨Tag.delete, i, m.i, j, m.j⟩]
      else if j < m.j then [⟨Tag.insert, i, m.i, j, m.j⟩]
      else []
    gap ++ (if m.size ≠ 0 then [⟨Tag.equal, m.i, m.i + m.size, m.j, m.j + m.size⟩] else [])
      ++ opcodesLoop (m.i + m.size) (m.j + m.size) ms

/-- `FileDiffViewer.get_diff_opcodes(lines1, lines2)` =
`difflib.SequenceMatcher(None, lines1, lines2).get_opcodes()`. -/
def getDiffOpcodes (lines1 lines2 : List String) : List Opcode :=
  opcodesLoop 0 0 (getMatchingBlocks lines1 lines2)

/-- Python string slicing `line[:stop]` with a possibly negative stop index
(a negative stop counts from the end of the string). -/
def pySliceTo (s : List Char) (stop : Int) : List Char :=
  if stop < 0 then s.take (s.length - stop.natAbs) else s.take stop.toNat

/-- Python `line.rstrip(chars)` for `chars = newline and carriage return`:
remove all trailing newline and carriage-return characters. -/
def rstripNL (s : List Char) : List Char :=
  (s.reverse.dropWhile (fun c => c == '\n' || c == '\r')).reverse

/-- `rstripNL` on `String`. -/
def rstripStr (s : String) : String :=
  String.mk (rstripNL s.data)

/-- `FileDiffViewer.truncate_line(line, width)`: strip trailing newlines, then
either slice to `width - 3` characters plus an ellipsis when longer than
`width`, or left-justify (right-pad with spaces) to `width`. -/
def truncate_line (line : List Char) (width : Nat) : List Char :=
  if width < (rstripNL line).length then
    pySliceTo (rstripNL line) ((width : Int) - 3) ++ ['.', '.', '.']
  else rstripNL line ++ List.replicate (width - (rstripNL line).length) ' '

/-- `FileDiffViewer.__init__`: `col_width = (width - 5) // 2`. -/
def colWidthOf (width : Nat) : Nat :=
  (width - 5) / 2

/-- The line printed by `FileDiffViewer.print_side_by_side(left, right, status)`:
`f-string` of the two truncated sides around the status marker, where a `None`
(or empty) side is rendered from the empty string. -/
def print_side_by_side (colWidth : Nat) (left right : Option (List Char))
    (status : List Char) : List Char :=
  truncate_line (left.getD []) colWidth ++ [' '] ++ status ++ [' '] ++
    truncate_line (right.getD []) colWidth

/-- One display row of the CLI renderer: the arguments of one
`print_side_by_side` call made by `FileDiffViewer.display_diff`. -/
structure Row where
  left : Option String
  right : Option String
  status : Char
deriving DecidableEq, Repr

/-- The rows `FileDiffViewer.display_diff` emits for one opcode: `equal` zips
the two ranges, `replace` pads the shorter side with `None` over
`max(i2-i1, j2-j1)` rows, `delete` and `insert` emit one one-sided row per
line. -/
def rowsOfOpcode (lines1 lines2 : List String) (op : Opcode) : List Row :=
  match op.tag with
  | Tag.equal =>
      (List.zip (List.range' op.i1 (op.i2 - op.i1)) (List.range' op.j1 (op.j2 - op.j1))).map
        (fun ij => ⟨some (lines1.getD ij.1 ""), some (lines2.getD ij.2 ""), ' '⟩)
  | Tag.replace =>
      (List.range (max (op.i2 - op.i1) (op.j2 - op.j1))).map
        (fun k =>
          ⟨if op.i1 + k < op.i2 then some (lines1.getD (op.i1 + k) "") else none,
           if op.j1 + k < op.j2 then some (lines2.getD (op.j1 + k) "") else none, '|'⟩)
  | Tag.delete =>
      (List.range' op.i1 (op.i2 - op.i1)).map
        (fun i => ⟨some (lines1.getD i ""), none, '-'⟩)
  | Tag.insert =>
      (List.range' op.j1 (op.j2 - op.j1)).map
        (fun j => ⟨none, some (lines2.getD j ""), '+'⟩)

/-- The opcode loop of `FileDiffViewer.display_diff`, emitting rows run after
run in opcode order. -/
def displayLoop (lines1 lines2 : List String) : List Opcode → List Row
  | [] => []
  | op :: ops => rowsOfOpcode lines1 lines2 op ++ displayLoop lines1 lines2 ops

/-- All rows printed by `FileDiffViewer.display_diff` for two line sequences. -/
def displayRows (lines1 lines2 : List String) : List Row :=
  displayLoop lines1 lines2 (getDiffOpcodes lines1 lines2)

/-- `has_differences` after the loop of `display_diff`: set in the `replace`,
`delete` and `insert` branches, left `False` by `equal`. -/
def hasDifferences (ops : List Opcode) : Bool :=
  ops.any (fun op => op.tag != Tag.equal)

/-- One `Text.insert` call of `FileDiffGUI.display_diff`: the inserted text
and its color tag. -/
structure GuiIns where
  text : String
  tag : String
deriving DecidableEq, Repr

/-- The paired left/right `Text.insert` calls `FileDiffGUI.display_diff` makes
for one opcode.  In the `replace` branch a side past its range inserts a bare
newline with tag `bg_normal`; the populated side inserts the stripped line
with tag `replace`.  `delete` and `insert` pad the opposite side with
`bg_normal` newlines. -/
def guiRowsOfOpcode (lines1 lines2 : List String) (op : Opcode) :
    List (GuiIns × GuiIns) :=
  match op.tag with
  | Tag.equal =>
      (List.zip (List.range' op.i1 (op.i2 - op.i1)) (List.range' op.j1 (op.j2 - op.j1))).map
        (fun ij =>
          (⟨rstripStr (lines1.getD ij.1 "") ++ "\n", "equal"⟩,
           ⟨rstripStr (lines2.getD ij.2 "") ++ "\n", "equal"⟩))
  | Tag.replace =>
      (List.range (max (op.i2 - op.i1) (op.j2 - op.j1))).map
        (fun k =>
          (if op.i1 + k < op.i2 then
              GuiIns.mk (rstripStr (lines1.getD (op.i1 + k) "") ++ "\n") "replace"
            else GuiIns.mk "\n" "bg_normal",
           if op.j1 + k < op.j2 then
              GuiIns.mk (rstripStr (lines2.getD (op.j1 + k) "") ++ "\n") "replace"
            else GuiIns.mk "\n" "bg_normal"))
  | Tag.delete =>
      (List.range' op.i1 (op.i2 - op.i1)).map
        (fun i =>
          (GuiIns.mk (rstripStr (lines1.getD i "") ++ "\n") "delete",
           GuiIns.mk "\n" "bg_normal"))
  | Tag.insert =>
      (List.range' op.j1 (op.j2 - op.j1)).map
        (fun j =>
          (GuiIns.mk "\n" "bg_normal",
           GuiIns.mk (rstripStr (lines2.getD j "") ++ "\n") "insert"))

/-- All paired inserts of `FileDiffGUI.display_diff` for two line sequences. -/
def guiDisplayPairs (lines1 lines2 : List String) : List (GuiIns × GuiIns) :=
  (getDiffOpcodes lines1 lines2).flatMap (guiRowsOfOpcode lines1 lines2)

/-- Outcome of `open(path, encoding='utf-8').readlines()`, modelling the
filesystem: success, `FileNotFoundError`, `UnicodeDecodeError`, or any other
`OSError` Python `open`/`read` can raise (e.g. `PermissionError`,
`IsADirectoryError`) which the `except` clauses of `read_file` do not name. -/
inductive ReadOutcome where
  | ok (lines : List String)
  | notFound
  | decodeError
  | otherOSError
deriving DecidableEq, Repr

/-- Abstract filesystem: maps a path to the outcome of opening and reading it. -/
def FS : Type := String → ReadOutcome

/-- An exception escaping `read_file`. -/
inductive PyFault where
  | fileNotFound (msg : String)
  | unicodeDecodeError (msg : String)
  | otherOSError
deriving DecidableEq, Repr

/-- `FileDiffViewer.read_file`: re-raises `FileNotFoundError` and
`UnicodeDecodeError` with formatted messages; any other error from `open`
propagates unchanged (no `except` clause catches it). -/
def read_file (fs : FS) (path : String) : Except PyFault (List String) :=
  match fs path with
  | ReadOutcome.ok ls => Except.ok ls
  | ReadOutcome.notFound =>
      Except.error (PyFault.fileNotFound ("File not found: " ++ path))
  | ReadOutcome.decodeError =>
      Except.error (PyFault.unicodeDecodeError
        ("Cannot decode " ++ path ++ " as UTF-8. Binary file?"))
  | ReadOutcome.otherOSError => Except.error PyFault.otherOSError

/-- `FileDiffViewer.display_diff`: the `try` around the two `read_file` calls
catches `(FileNotFoundError, UnicodeDecodeError)`, prints the message to
stderr and returns 2; any other exception propagates to the caller.  On
success it returns 1 when any opcode differs and 0 otherwise.  The result
pairs the return code with the error message printed, if any. -/
def display_diff (fs : FS) (file1 file2 : String) :
    Except PyFault (Nat × Option String) :=
  match read_file fs file1 with
  | Except.error (PyFault.fileNotFound m) => Except.ok (2, some ("Error: " ++ m))
  | Except.error (PyFault.unicodeDecodeError m) => Except.ok (2, some ("Error: " ++ m))
  | Except.error PyFault.otherOSError => Except.error PyFault.otherOSError
  | Except.ok lines1 =>
    match read_file fs file2 with
    | Except.error (PyFault.fileNotFound m) => Except.ok (2, some ("Error: " ++ m))
    | Except.error (PyFault.unicodeDecodeError m) => Except.ok (2, some ("Error: " ++ m))
    | Except.error PyFault.otherOSError => Except.error PyFault.otherOSError
    | Except.ok lines2 =>
        Except.ok (if hasDifferences (getDiffOpcodes lines1 lines2) then 1 else 0, none)

/-- The action `main` dispatches to, before any file access. -/
inductive MainAction where
  | usageError (code : Nat)
  | guiEmpty
  | guiCompare (f1 f2 : String)
  | cliCompare (f1 f2 : String)
deriving DecidableEq, Repr

/-- The dispatch of `main()`: `use_cli` is whether `--cli` occurs anywhere in
`sys.argv`; `args` is `sys.argv[1:]` with all `--cli` occurrences removed.
Zero remaining arguments open the blank GUI, unless `--cli` was given, which
is a usage error returning 2; exactly two arguments compare in CLI or GUI
mode; any other count is a usage error returning 2. -/
def mainDispatch (argv : List String) : MainAction :=
  let useCli := argv.contains "--cli"
  let args := (argv.drop 1).filter (fun s => s != "--cli")
  if args.length = 0 then
    if useCli then MainAction.usageError 2 else MainAction.guiEmpty
  else if args.length = 2 then
    if useCli then MainAction.cliCompare (args.getD 0 "") (args.getD 1 "")
    else MainAction.guiCompare (args.getD 0 "") (args.getD 1 "")
  else MainAction.usageError 2

/-! ## Helper lemmas -/

theorem rstripNL_eq_self {l : List Char}
    (h : ∀ c ∈ l, ¬(c == '\n' || c == '\r') = true) : rstripNL l = l := by
  unfold rstripNL
  rw [List.dropWhile_eq_self_iff.mpr, List.reverse_reverse]
  intro hl
  exact h _ (List.mem_reverse.mp (List.get_mem _ _ _))

theorem truncate_line_length (line : List Char) (w : Nat) (h : 3 ≤ w) :
    (truncate_line line w).length = w := by
  unfold truncate_line pySliceTo
  by_cases hw : w < (rstripNL line).length
  · have hstop : ¬((w : Int) - 3 < 0) := by omega
    simp only [if_pos hw, if_neg hstop, List.length_append]
    have htn : ((w : Int) - 3).toNat = w - 3 := by omega
    rw [htn, List.length_take]
    simp only [List.length_cons, List.length_nil]
    omega
  · simp only [if_neg hw, List.length_append, List.length_replicate]
    omega

theorem print_side_by_side_length (cw : Nat) (hcw : 3 ≤ cw)
    (left right : Option (List Char)) (status : List Char)
    (hs : status.length = 1) :
    (print_side_by_side cw left right status).length = 2 * cw + 3 := by
  unfold print_side_by_side
  simp only [List.length_append, truncate_line_length _ _ hcw, hs,
    List.length_cons, List.length_nil]
  omega

/-! ## Claims C8 and C10: truncation and fixed row width -/

/-- C8: `truncate_line` on a 100-character line (no newline characters) with
width 20 yields a string of length exactly 20 ending in the ellipsis marker
`...`; on a 10-character line with width 20 it yields a string of length
exactly 20 (the line right-padded with spaces). -/
theorem c8_truncation_scenario (long short : List Char)
    (hlong : long.length = 100) (hshort : short.length = 10)
    (hl : ∀ c ∈ long, ¬(c == '\n' || c == '\r') = true)
    (hs : ∀ c ∈ short, ¬(c == '\n' || c == '\r') = true) :
    (truncate_line long 20).length = 20 ∧
    (truncate_line long 20).drop 17 = ['.', '.', '.'] ∧
    (truncate_line short 20).length = 20 ∧
    truncate_line short 20 = short ++ List.replicate 10 ' ' := by
  have hrl : rstripNL long = long := rstripNL_eq_self hl
  have hrs : rstripNL short = short := rstripNL_eq_self hs
  refine ⟨truncate_line_length _ _ (by omega), ?_, truncate_line_length _ _ (by omega), ?_⟩
  · have htr : truncate_line long 20 = List.take 17 long ++ ['.', '.', '.'] := by
      unfold truncate_line pySliceTo
      rw [hrl, if_pos (by omega), if_neg (by norm_num)]
      norm_num
      rfl
    rw [htr, List.drop_append_of_le_length (by simp [hlong]),
      List.drop_eq_nil_of_le (by simp [hlong]), List.nil_append]
  · unfold truncate_line
    rw [hrs, if_neg (by omega), hshort]

/-- Witness for C8 at concrete 100- and 10-character lines. -/
theorem c8_witness :
    (List.replicate 100 'a').length = 100 ∧
    (truncate_line (List.replicate 100 'a') 20).length = 20 ∧
    (truncate_line (List.replicate 100 'a') 20).drop 17 = ['.', '.', '.'] ∧
    (truncate_line (List.replicate 10 'b') 20).length = 20 ∧
    truncate_line (List.replicate 10 'b') 20 =
      List.replicate 10 'b' ++ List.replicate 10 ' ' := by
  have h := c8_truncation_scenario (List.replicate 100 'a') (List.replicate 10 'b')
    (by decide) (by decide) (by decide) (by decide)
  exact ⟨by decide, h.1, h.2.1, h.2.2.1, h.2.2.2⟩

/-- C10: for every line and every width at least 3, `truncate_line` returns a
string of length exactly the width; consequently every data row printed by
`print_side_by_side` has total length `2 * col_width + 3`, regardless of the
content or presence of the left and right lines. -/
theorem c10_fixed_row_width (line : List Char) (w : Nat) (hw : 3 ≤ w)
    (cw : Nat) (hcw : 3 ≤ cw) (left right : Option (List Char))
    (status : List Char) (hs : status.length = 1) :
    (truncate_line line w).length = w ∧
    (print_side_by_side cw left right status).length = 2 * cw + 3 :=
  ⟨truncate_line_length line w hw, print_side_by_side_length cw hcw left right status hs⟩

/-- Witness for C10 at a concrete overlong line and the default column width
`(80 - 5) // 2 = 37`. -/
theorem c10_witness :
    3 ≤ 20 ∧ 3 ≤ colWidthOf 80 ∧
    (truncate_line (List.replicate 50 'x') 20).length = 20 ∧
    (print_side_by_side (colWidthOf 80) (some (List.replicate 50 'x')) none
      ['|']).length = 2 * colWidthOf 80 + 3 := by
  have h := c10_fixed_row_width (List.replicate 50 'x') 20 (by decide)
    (colWidthOf 80) (by decide) (some (List.replicate 50 'x')) none ['|'] (by decide)
  exact ⟨by decide, by decide, h.1, h.2⟩

/-! ## Claim C9: invocation modes -/

/-- C9 counterexample: with argument vector `["MyFileDiff.py", "--cli"]` there
are zero file arguments after removing the `--cli` flag, yet `main` does not
open interactive mode with empty selection: it prints usage and returns 2. -/
theorem c9_counterexample :
    ((["MyFileDiff.py", "--cli"].drop 1).filter (fun s => s != "--cli")).length = 0 ∧
    mainDispatch ["MyFileDiff.py", "--cli"] = MainAction.usageError 2 ∧
    mainDispatch ["MyFileDiff.py", "--cli"] ≠ MainAction.guiEmpty := by decide

/-- C9 (amended): with zero file arguments `main` opens interactive mode with
empty selection only when `--cli` was not passed; zero file arguments with
`--cli` is a usage error with exit code 2; exactly two file arguments compare
in text-stream or interactive mode according to the `--cli` switch; any other
file-argument count is a usage error with exit code 2. -/
theorem c9_invocation_modes (a0 : String) (rest : List String) :
    ((rest.filter (fun s => s != "--cli")).length = 0 →
       mainDispatch (a0 :: rest) =
         if (a0 :: rest).contains "--cli" then MainAction.usageError 2
         else MainAction.guiEmpty) ∧
    ((rest.filter (fun s => s != "--cli")).length = 2 →
       mainDispatch (a0 :: rest) =
         if (a0 :: rest).contains "--cli" then
           MainAction.cliCompare ((rest.filter (fun s => s != "--cli")).getD 0 "")
             ((rest.filter (fun s => s != "--cli")).getD 1 "")
         else
           MainAction.guiCompare ((rest.filter (fun s => s != "--cli")).getD 0 "")
             ((rest.filter (fun s => s != "--cli")).getD 1 "")) ∧
    ((rest.filter (fun s => s != "--cli")).length ≠ 0 →
     (rest.filter (fun s => s != "--cli")).length ≠ 2 →
       mainDispatch (a0 :: rest) = MainAction.usageError 2) := by
  unfold mainDispatch
  simp only [List.drop_succ_cons, List.drop_zero]
  refine ⟨fun h0 => ?_, fun h2 => ?_, fun h0 h2 => ?_⟩
  · rw [if_pos h0]
  · rw [if_neg (by omega), if_pos h2]
  · rw [if_neg h0, if_neg h2]

/-- Witness for C9 at a concrete two-file `--cli` invocation. -/
theorem c9_witness :
    mainDispatch ["MyFileDiff.py", "x.txt", "y.txt", "--cli"] =
      MainAction.cliCompare "x.txt" "y.txt" := by
  have h := (c9_invocation_modes "MyFileDiff.py" ["x.txt", "y.txt", "--cli"]).2.1
    (by decide)
  exact h.trans (by decide)

/-! ## Claim C3: error handling at the comparison boundary -/

/-- C3 counterexample: a read failure whose exception is neither
`FileNotFoundError` nor `UnicodeDecodeError` (e.g. `PermissionError` or
`IsADirectoryError` — the path does not resolve to a readable file) is not
caught by `display_diff` and propagates as a raw fault to the caller. -/
theorem c3_counterexample :
    display_diff (fun _ => ReadOutcome.otherOSError) "f1" "f2" =
      Except.error PyFault.otherOSError ∧
    ∀ code msg, display_diff (fun _ => ReadOutcome.otherOSError) "f1" "f2" ≠
      Except.ok (code, msg) := by
  exact ⟨rfl, fun code msg h => by simp [display_diff, read_file] at h⟩

theorem display_diff_read_error (fs : FS) (f1 f2 : String)
    (h : fs f1 = ReadOutcome.notFound ∨ fs f1 = ReadOutcome.decodeError ∨
      (∃ ls, fs f1 = ReadOutcome.ok ls ∧
        (fs f2 = ReadOutcome.notFound ∨ fs f2 = ReadOutcome.decodeError))) :
    ∃ msg, display_diff fs f1 f2 = Except.ok (2, some msg) := by
  unfold display_diff read_file
  rcases h with h1 | h1 | ⟨ls, h1, h2 | h2⟩ <;> rw [h1] <;> try exact ⟨_, rfl⟩
  all_goals rw [h2]; exact ⟨_, rfl⟩

/-- C3 (amended): every `FileNotFoundError` or `UnicodeDecodeError` raised
while reading either file is caught at the comparison boundary
(`display_diff`) and converted to a user-facing message plus the `Error`
outcome (return value 2); faults of other kinds propagate. -/
theorem c3_read_errors_converted (fs : FS) (f1 f2 : String)
    (h : fs f1 = ReadOutcome.notFound ∨ fs f1 = ReadOutcome.decodeError ∨
      (∃ ls, fs f1 = ReadOutcome.ok ls ∧
        (fs f2 = ReadOutcome.notFound ∨ fs f2 = ReadOutcome.decodeError))) :
    ∃ msg, display_diff fs f1 f2 = Except.ok (2, some msg) :=
  display_diff_read_error fs f1 f2 h

/-- Witness for C3 at a concrete filesystem with one missing path. -/
theorem c3_witness :
    ∃ msg, display_diff
      (fun p => if p = "gone.txt" then ReadOutcome.notFound else ReadOutcome.ok [])
      "gone.txt" "there.txt" = Except.ok (2, some msg) :=
  c3_read_errors_converted _ "gone.txt" "there.txt" (Or.inl (by simp))

/-! ## Claim C4: kinds of rows in a Replace run -/

/-- C4 counterexample: for lines `["a\n", "b\n"]` against `["c\n"]` the aligner
yields a single Replace run, and its second GUI row's right side is a blank
padding row inserted with tag `bg_normal`, not `replace` as the claim states. -/
theorem c4_counterexample :
    (getDiffOpcodes ["a\n", "b\n"] ["c\n"]).map Opcode.tag = [Tag.replace] ∧
    ((guiDisplayPairs ["a\n", "b\n"] ["c\n"]).getD 1 (⟨"", ""⟩, ⟨"", ""⟩)).2 =
      GuiIns.mk "\n" "bg_normal" ∧
    ((guiDisplayPairs ["a\n", "b\n"] ["c\n"]).getD 1 (⟨"", ""⟩, ⟨"", ""⟩)).2.tag ≠
      "replace" := by decide

/-- C4 (amended): in a Replace run every CLI row is printed with status marker
`|`, including rows where one side is absent; in the GUI each populated side
is inserted with tag `replace`, while a blank padding side with no
counterpart line is inserted as a bare newline with tag `bg_normal`. -/
theorem c4_replace_row_kinds (lines1 lines2 : List String) (op : Opcode)
    (hop : op ∈ getDiffOpcodes lines1 lines2) (htag : op.tag = Tag.replace) :
    (∀ r ∈ rowsOfOpcode lines1 lines2 op, r.status = '|') ∧
    (∀ k, k < (guiRowsOfOpcode lines1 lines2 op).length →
      (((guiRowsOfOpcode lines1 lines2 op).getD k (⟨"", ""⟩, ⟨"", ""⟩)).1.tag =
        if op.i1 + k < op.i2 then "replace" else "bg_normal") ∧
      (((guiRowsOfOpcode lines1 lines2 op).getD k (⟨"", ""⟩, ⟨"", ""⟩)).2.tag =
        if op.j1 + k < op.j2 then "replace" else "bg_normal")) := by
  constructor
  · intro r hr
    simp only [rowsOfOpcode, htag, List.mem_map] at hr
    obtain ⟨k, _, hk⟩ := hr
    exact hk ▸ rfl
  · intro k hk
    simp only [guiRowsOfOpcode, htag, List.length_map, List.length_range] at hk ⊢
    rw [List.getD_eq_getElem _ _ (by simpa using hk), List.getElem_map,
      List.getElem_range]
    constructor
    · by_cases hc : op.i1 + k < op.i2 <;> simp [hc]
    · by_cases hc : op.j1 + k < op.j2 <;> simp [hc]

/-- Witness for C4 at the concrete Replace run of
`["a\n", "b\n"]` vs `["c\n"]`. -/
theorem c4_witness :
    (∀ r ∈ rowsOfOpcode ["a\n", "b\n"] ["c\n"] ⟨Tag.replace, 0, 2, 0, 1⟩,
      r.status = '|') ∧
    (∀ k, k < (guiRowsOfOpcode ["a\n", "b\n"] ["c\n"] ⟨Tag.replace, 0, 2, 0, 1⟩).length →
      (((guiRowsOfOpcode ["a\n", "b\n"] ["c\n"] ⟨Tag.replace, 0, 2, 0, 1⟩).getD k
          (⟨"", ""⟩, ⟨"", ""⟩)).1.tag = if 0 + k < 2 then "replace" else "bg_normal") ∧
      (((guiRowsOfOpcode ["a\n", "b\n"] ["c\n"] ⟨Tag.replace, 0, 2, 0, 1⟩).getD k
          (⟨"", ""⟩, ⟨"", ""⟩)).2.tag = if 0 + k < 1 then "replace" else "bg_normal")) :=
  c4_replace_row_kinds ["a\n", "b\n"] ["c\n"] ⟨Tag.replace, 0, 2, 0, 1⟩
    (by decide) rfl

/-! ## Claim C5: row count conservation and row order -/

theorem displayLoop_eq_flatMap (l1 l2 : List String) (ops : List Opcode) :
    displayLoop l1 l2 ops = ops.flatMap (rowsOfOpcode l1 l2) := by
  induction ops with
  | nil => rfl
  | cons op ops ih => simp [displayLoop, ih]

theorem opcodesLoop_equal_shape (ms : List Match) :
    ∀ x y op, op ∈ opcodesLoop x y ms → op.tag = Tag.equal →
      op.i2 = op.i1 + (op.j2 - op.j1) ∧ op.j1 ≤ op.j2 := by
  induction ms with
  | nil => intro x y op hop; simp [opcodesLoop] at hop
  | cons m ms ih =>
    intro x y op hop htag
    simp only [opcodesLoop, List.append_assoc, List.mem_append] at hop
    rcases hop with hgap | hop
    · exfalso
      split at hgap
      · simp at hgap; rw [hgap] at htag; exact Tag.noConfusion htag
      · split at hgap
        · simp at hgap; rw [hgap] at htag; exact Tag.noConfusion htag
        · split at hgap
          · simp at hgap; rw [hgap] at htag; exact Tag.noConfusion htag
          · simp at hgap
    · rcases hop with heq | hrec
      · split at heq
        · simp at heq
          rw [heq]
          simp only
          omega
        · simp at heq
      · exact ih _ _ op hrec htag

/-- C5: for every run produced by the aligner, the CLI row renderer emits
exactly `max(i2-i1, j2-j1)` rows for a Replace run, exactly the left range
length for Equal and Delete runs, and exactly the right range length for an
Insert run; and the full row stream is the concatenation of the per-run rows
in run order. -/
theorem c5_row_count_conservation (l1 l2 : List String) (op : Opcode)
    (hop : op ∈ getDiffOpcodes l1 l2) :
    displayRows l1 l2 = (getDiffOpcodes l1 l2).flatMap (rowsOfOpcode l1 l2) ∧
    (rowsOfOpcode l1 l2 op).length =
      (match op.tag with
        | Tag.replace => max (op.i2 - op.i1) (op.j2 - op.j1)
        | Tag.equal => op.i2 - op.i1
        | Tag.delete => op.i2 - op.i1
        | Tag.insert => op.j2 - op.j1) := by
  refine ⟨displayLoop_eq_flatMap l1 l2 _, ?_⟩
  cases htag : op.tag with
  | equal =>
    have hbal := opcodesLoop_equal_shape _ _ _ _ hop htag
    simp only [rowsOfOpcode, htag, List.length_map, List.length_zip,
      List.length_range']
    omega
  | replace => simp [rowsOfOpcode, htag]
  | delete => simp [rowsOfOpcode, htag]
  | insert => simp [rowsOfOpcode, htag]

/-- Witness for C5 at the concrete Replace run of `["a\n", "b\n"]` vs
`["c\n"]`: two rows are emitted. -/
theorem c5_witness :
    displayRows ["a\n", "b\n"] ["c\n"] =
      (getDiffOpcodes ["a\n", "b\n"] ["c\n"]).flatMap
        (rowsOfOpcode ["a\n", "b\n"] ["c\n"]) ∧
    (rowsOfOpcode ["a\n", "b\n"] ["c\n"] ⟨Tag.replace, 0, 2, 0, 1⟩).length =
      max (2 - 0) (1 - 0) :=
  c5_row_count_conservation ["a\n", "b\n"] ["c\n"] ⟨Tag.replace, 0, 2, 0, 1⟩
    (by decide)

/-! ## Claim C7: emptiness -/

theorem processQueue_nil (a b : List String) (b2j : String → List Nat)
    (fuel : Nat) : processQueue a b b2j fuel [] = [] := by
  cases fuel <;> rfl

theorem b2jList_nil (x : String) : b2jList [] x = [] := rfl

theorem rowLoop_snd_nil_b2j (a : List String) (b2j : String → List Nat)
    (hb : ∀ x, b2j x = []) (blo bhi : Nat) :
    ∀ is j2len best, (rowLoop a b2j blo bhi is j2len best).2 = best := by
  intro is
  induction is with
  | nil => intro j2len best; rfl
  | cons i is ih =>
    intro j2len best
    simp only [rowLoop, hb]
    exact ih _ _

theorem extendHi_bhi_zero (a b : List String) (bj : String → Bool) (ahi : Nat) :
    ∀ fuel m, extendHi a b bj ahi 0 fuel m = m := by
  intro fuel m
  cases fuel with
  | zero => rfl
  | succ f => simp [extendHi]

theorem extendHiJunk_bhi_zero (a b : List String) (bj : String → Bool) (ahi : Nat) :
    ∀ fuel m, extendHiJunk a b bj ahi 0 fuel m = m := by
  intro fuel m
  cases fuel with
  | zero => rfl
  | succ f => simp [extendHiJunk]

theorem flm_b_empty (a : List String) (b2j : String → List Nat)
    (hb : ∀ x, b2j x = []) (bj : String → Bool) (ahi : Nat) :
    findLongestMatch a [] b2j bj 0 ahi 0 0 = ⟨0, 0, 0⟩ := by
  simp only [findLongestMatch]
  have h1 : (rowLoop a b2j 0 0 (List.range' 0 (ahi - 0)) (fun _ => 0)
      ⟨0, 0, 0⟩).2 = ⟨0, 0, 0⟩ := rowLoop_snd_nil_b2j a b2j hb 0 0 _ _ _
  rw [h1]
  have e1 : extendLo a [] bj 0 0 (Match.mk 0 0 0).i ⟨0, 0, 0⟩ = ⟨0, 0, 0⟩ := rfl
  rw [e1]
  have e2 : extendHi a [] bj ahi 0 ahi ⟨0, 0, 0⟩ = ⟨0, 0, 0⟩ :=
    extendHi_bhi_zero a [] bj ahi ahi _
  rw [e2]
  have e3 : extendLoJunk a [] bj 0 0 (Match.mk 0 0 0).i ⟨0, 0, 0⟩ = ⟨0, 0, 0⟩ := rfl
  rw [e3]
  exact extendHiJunk_bhi_zero a [] bj ahi ahi _

theorem getDiffOpcodes_nil_nil : getDiffOpcodes [] [] = [] := by decide

theorem getDiffOpcodes_nil_right (L : List String) (hL : L ≠ []) :
    getDiffOpcodes L [] = [⟨Tag.delete, 0, L.length, 0, 0⟩] := by
  have hlen : 0 < L.length := List.length_pos.mpr hL
  have hflm : findLongestMatch L [] (b2jList []) (fun _ => false) 0 L.length 0 0 =
      ⟨0, 0, 0⟩ := flm_b_empty L _ b2jList_nil _ _
  unfold getDiffOpcodes getMatchingBlocks
  simp only [List.length_nil]
  rw [show L.length + 0 + 1 = L.length + 0 + 1 from rfl]
  simp only [processQueue, hflm, ne_eq, not_true_eq_false, reduceIte,
    processQueue_nil]
  simp only [List.insertionSort, collapseAux, ne_eq, not_true_eq_false,
    reduceIte, List.nil_append]
  simp only [opcodesLoop]
  rw [if_neg (by omega), if_pos hlen]
  simp

theorem getDiffOpcodes_nil_left (R : List String) (hR : R ≠ []) :
    getDiffOpcodes [] R = [⟨Tag.insert, 0, 0, 0, R.length⟩] := by
  have hlen : 0 < R.length := List.length_pos.mpr hR
  have hflm : findLongestMatch [] R (b2jList R) (fun _ => false) 0 0 0 R.length =
      ⟨0, 0, 0⟩ := rfl
  unfold getDiffOpcodes getMatchingBlocks
  simp only [List.length_nil]
  simp only [processQueue, hflm, ne_eq, not_true_eq_false, reduceIte,
    processQueue_nil]
  simp only [List.insertionSort, collapseAux, ne_eq, not_true_eq_false,
    reduceIte, List.nil_append]
  simp only [opcodesLoop]
  rw [if_neg (by omega), if_neg (by omega), if_pos hlen]
  simp

/-- C7: aligning two empty sequences yields zero runs and outcome Identical
(return value 0 from `display_diff`); aligning an empty left sequence with a
non-empty right sequence yields exactly one Insert run spanning the right
sequence; aligning a non-empty left sequence with an empty right sequence
yields exactly one Delete run spanning the left sequence. -/
theorem c7_emptiness (L R : List String) (hL : L ≠ []) (hR : R ≠ [])
    (fs : FS) (f1 f2 : String) (h1 : fs f1 = ReadOutcome.ok [])
    (h2 : fs f2 = ReadOutcome.ok []) :
    getDiffOpcodes [] [] = [] ∧
    display_diff fs f1 f2 = Except.ok (0, none) ∧
    getDiffOpcodes [] R = [⟨Tag.insert, 0, 0, 0, R.length⟩] ∧
    getDiffOpcodes L [] = [⟨Tag.delete, 0, L.length, 0, 0⟩] := by
  refine ⟨getDiffOpcodes_nil_nil, ?_, getDiffOpcodes_nil_left R hR,
    getDiffOpcodes_nil_right L hL⟩
  unfold display_diff read_file
  rw [h1, h2]
  simp [hasDifferences, getDiffOpcodes_nil_nil]

/-! ## Invariants of find_longest_match -/

/-- Invariant of the `j2len` dictionary after processing rows `alo .. iNext-1`:
a nonzero chain value at column `j` stays inside `[blo, bhi)`, is bounded by
the number of processed rows and by the available columns, and witnesses an
elementwise match ending at row `iNext - 1` and column `j`. -/
def RowState (a b : List String) (alo blo bhi iNext : Nat) (f : Nat → Nat) : Prop :=
  ∀ j, f j ≠ 0 →
    blo ≤ j ∧ j < bhi ∧ f j ≤ iNext - alo ∧ f j + blo ≤ j + 1 ∧
    ∀ t, t < f j → a.getD (iNext - 1 - t) "" = b.getD (j - t) ""

/-- Invariant of the running best block: it stays inside
`[alo, iBound) × [blo, bhi)` and its region matches elementwise. -/
def BestBound (a b : List String) (alo blo bhi iBound : Nat) (m : Match) : Prop :=
  alo ≤ m.i ∧ blo ≤ m.j ∧ m.i + m.size ≤ iBound ∧ m.j + m.size ≤ bhi ∧
  ∀ t, t < m.size → a.getD (m.i + t) "" = b.getD (m.j + t) ""

theorem BestBound.mono {a b : List String} {alo blo bhi i1 i2 : Nat} {m : Match}
    (h : BestBound a b alo blo bhi i1 m) (hle : i1 ≤ i2) :
    BestBound a b alo blo bhi i2 m :=
  ⟨h.1, h.2.1, h.2.2.1.trans hle, h.2.2.2.1, h.2.2.2.2⟩

theorem innerLoop_inv (a b : List String) (alo blo bhi i : Nat) (old : Nat → Nat)
    (hold : RowState a b alo blo bhi i old) (halo : alo ≤ i) :
    ∀ (js : List Nat) (new : Nat → Nat) (best : Match),
      (∀ j ∈ js, b.getD j "" = a.getD i "") →
      RowState a b alo blo bhi (i + 1) new →
      BestBound a b alo blo bhi (i + 1) best →
      RowState a b alo blo bhi (i + 1) (innerLoop blo bhi i old js new best).1 ∧
      BestBound a b alo blo bhi (i + 1) (innerLoop blo bhi i old js new best).2 := by
  intro js
  induction js with
  | nil => intro new best _ hnew hbest; exact ⟨hnew, hbest⟩
  | cons j js ih =>
    intro new best hjs hnew hbest
    simp only [innerLoop]
    by_cases h1 : j < blo
    · rw [if_pos h1]
      exact ih new best (fun x hx => hjs x (List.mem_cons_of_mem _ hx)) hnew hbest
    · rw [if_neg h1]
      by_cases h2 : bhi ≤ j
      · rw [if_pos h2]; exact ⟨hnew, hbest⟩
      · rw [if_neg h2]
        have hblo : blo ≤ j := Nat.le_of_not_lt h1
        have hbhi : j < bhi := Nat.lt_of_not_le h2
        have hbj : b.getD j "" = a.getD i "" := hjs j (List.mem_cons_self _ _)
        set K := (if j = 0 then 0 else old (j - 1)) + 1 with hKdef
        have hK : K ≤ i + 1 - alo ∧ K + blo ≤ j + 1 ∧
            ∀ t, t < K → a.getD (i - t) "" = b.getD (j - t) "" := by
          have hcase : (if j = 0 then 0 else old (j - 1)) = 0 ∨
              (j ≠ 0 ∧ old (j - 1) ≠ 0) := by
            by_cases hj0 : j = 0
            · exact Or.inl (by simp [hj0])
            · rcases Nat.eq_zero_or_pos (old (j - 1)) with h0 | h0
              · exact Or.inl (by simp [hj0, h0])
              · exact Or.inr ⟨hj0, by omega⟩
          rcases hcase with hz | ⟨hj0, hnz⟩
          · refine ⟨by rw [hKdef, hz]; omega, by rw [hKdef, hz]; omega, ?_⟩
            intro t ht
            rw [hKdef, hz] at ht
            interval_cases t
            simpa using hbj.symm
          · obtain ⟨hb1, hb2, hb3, hb4, hb5⟩ := hold (j - 1) hnz
            rw [hKdef, if_neg hj0]
            refine ⟨by omega, by omega, ?_⟩
            intro t ht
            match t with
            | 0 => simpa using hbj.symm
            | t' + 1 =>
              have h := hb5 t' (by omega)
              rw [show i - (t' + 1) = i - 1 - t' by omega,
                show j - (t' + 1) = j - 1 - t' by omega]
              exact h
        refine ih _ _ (fun x hx => hjs x (List.mem_cons_of_mem _ hx)) ?_ ?_
        · intro x hx
          by_cases hxj : x = j
          · subst hxj
            simp only [if_pos rfl] at hx ⊢
            refine ⟨hblo, hbhi, hK.1, hK.2.1, ?_⟩
            intro t ht
            have := hK.2.2 t ht
            rwa [show i + 1 - 1 - t = i - t by omega]
          · simp only [if_neg hxj] at hx ⊢
            exact hnew x hx
        · by_cases hup : best.size < K
          · rw [if_pos hup]
            have hKi : K ≤ i + 1 := by omega
            have hKj : K ≤ j + 1 := by omega
            refine ⟨by simp; omega, by simp; omega, by simp; omega, by simp; omega, ?_⟩
            intro t ht
            simp only at ht ⊢
            have h := hK.2.2 (K - 1 - t) (by omega)
            rw [show i + 1 - K + t = i - (K - 1 - t) by omega,
              show j + 1 - K + t = j - (K - 1 - t) by omega]
            exact h
          · rw [if_neg hup]
            exact hbest

theorem rowLoop_inv (a b : List String) (b2j : String → List Nat)
    (hb2j : ∀ x j, j ∈ b2j x → b.getD j "" = x) (alo blo bhi : Nat) :
    ∀ (n i : Nat) (j2len : Nat → Nat) (best : Match),
      alo ≤ i →
      RowState a b alo blo bhi i j2len →
      BestBound a b alo blo bhi i best →
      BestBound a b alo blo bhi (i + n)
        (rowLoop a b2j blo bhi (List.range' i n) j2len best).2 := by
  intro n
  induction n with
  | zero =>
    intro i j2len best _ _ hbest
    simpa [rowLoop] using hbest
  | succ n ih =>
    intro i j2len best hai hrow hbest
    rw [List.range'_succ, rowLoop]
    have hinner := innerLoop_inv a b alo blo bhi i j2len hrow hai
      (b2j (a.getD i "")) (fun _ => 0) best
      (fun j hj => hb2j _ j hj)
      (fun j hj => absurd rfl hj)
      (hbest.mono (Nat.le_succ i))
    have hrec := ih (i + 1) _ _ (by omega) hinner.1 hinner.2
    rwa [show i + 1 + n = i + (n + 1) by omega] at hrec

theorem extendLo_inv (a b : List String) (bj : String → Bool)
    (alo blo bhi iB : Nat) :
    ∀ (fuel : Nat) (m : Match), BestBound a b alo blo bhi iB m →
      BestBound a b alo blo bhi iB (extendLo a b bj alo blo fuel m) := by
  intro fuel
  induction fuel with
  | zero => intro m h; exact h
  | succ f ih =>
    intro m h
    rw [extendLo]
    split
    case isTrue hg =>
      apply ih
      simp only [Bool.and_eq_true, decide_eq_true_eq] at hg
      obtain ⟨⟨⟨hia, hjb⟩, -⟩, heq⟩ := hg
      obtain ⟨b1, b2, b3, b4, b5⟩ := h
      refine ⟨by simp; omega, by simp; omega, by simp; omega, by simp; omega, ?_⟩
      intro t ht
      simp only at ht ⊢
      match t with
      | 0 =>
        simpa using eq_of_beq heq
      | t' + 1 =>
        have := b5 t' (by omega)
        rw [show m.i - 1 + (t' + 1) = m.i + t' by omega,
          show m.j - 1 + (t' + 1) = m.j + t' by omega]
        exact this
    case isFalse => exact h

theorem extendHi_inv (a b : List String) (bj : String → Bool)
    (alo blo bhi iB : Nat) :
    ∀ (fuel : Nat) (m : Match), BestBound a b alo blo bhi iB m →
      BestBound a b alo blo bhi iB (extendHi a b bj iB bhi fuel m) := by
  intro fuel
  induction fuel with
  | zero => intro m h; exact h
  | succ f ih =>
    intro m h
    rw [extendHi]
    split
    case isTrue hg =>
      apply ih
      simp only [Bool.and_eq_true, decide_eq_true_eq] at hg
      obtain ⟨⟨⟨hia, hjb⟩, -⟩, heq⟩ := hg
      obtain ⟨b1, b2, b3, b4, b5⟩ := h
      refine ⟨b1, b2, by simp; omega, by simp; omega, ?_⟩
      intro t ht
      simp only at ht ⊢
      by_cases hts : t < m.size
      · exact b5 t hts
      · have hteq : t = m.size := by omega
        subst hteq
        exact eq_of_beq heq
    case isFalse => exact h

theorem extendLoJunk_inv (a b : List String) (bj : String → Bool)
    (alo blo bhi iB : Nat) :
    ∀ (fuel : Nat) (m : Match), BestBound a b alo blo bhi iB m →
      BestBound a b alo blo bhi iB (extendLoJunk a b bj alo blo fuel m) := by
  intro fuel
  induction fuel with
  | zero => intro m h; exact h
  | succ f ih =>
    intro m h
    rw [extendLoJunk]
    split
    case isTrue hg =>
      apply ih
      simp only [Bool.and_eq_true, decide_eq_true_eq] at hg
      obtain ⟨⟨⟨hia, hjb⟩, -⟩, heq⟩ := hg
      obtain ⟨b1, b2, b3, b4, b5⟩ := h
      refine ⟨by simp; omega, by simp; omega, by simp; omega, by simp; omega, ?_⟩
      intro t ht
      simp only at ht ⊢
      match t with
      | 0 => simpa using eq_of_beq heq
      | t' + 1 =>
        have := b5 t' (by omega)
        rw [show m.i - 1 + (t' + 1) = m.i + t' by omega,
          show m.j - 1 + (t' + 1) = m.j + t' by omega]
        exact this
    case isFalse => exact h

theorem extendHiJunk_inv (a b : List String) (bj : String → Bool)
    (alo blo bhi iB : Nat) :
    ∀ (fuel : Nat) (m : Match), BestBound a b alo blo bhi iB m →
      BestBound a b alo blo bhi iB (extendHiJunk a b bj iB bhi fuel m) := by
  intro fuel
  induction fuel with
  | zero => intro m h; exact h
  | succ f ih =>
    intro m h
    rw [extendHiJunk]
    split
    case isTrue hg =>
      apply ih
      simp only [Bool.and_eq_true, decide_eq_true_eq] at hg
      obtain ⟨⟨⟨hia, hjb⟩, -⟩, heq⟩ := hg
      obtain ⟨b1, b2, b3, b4, b5⟩ := h
      refine ⟨b1, b2, by simp; omega, by simp; omega, ?_⟩
      intro t ht
      simp only at ht ⊢
      by_cases hts : t < m.size
      · exact b5 t hts
      · have hteq : t = m.size := by omega
        subst hteq
        exact eq_of_beq heq
    case isFalse => exact h

theorem flm_inv (a b : List String) (b2j : String → List Nat)
    (hb2j : ∀ x j, j ∈ b2j x → b.getD j "" = x) (bj : String → Bool)
    (alo ahi blo bhi : Nat) (hA : alo ≤ ahi) (hB : blo ≤ bhi) :
    BestBound a b alo blo bhi ahi (findLongestMatch a b b2j bj alo ahi blo bhi) := by
  simp only [findLongestMatch]
  have h0 := rowLoop_inv a b b2j hb2j alo blo bhi (ahi - alo) alo (fun _ => 0)
    ⟨alo, blo, 0⟩ le_rfl (fun j hj => absurd rfl hj)
    ⟨le_rfl, le_rfl, by simp, by simpa using hB, fun t ht => absurd ht (Nat.not_lt_zero t)⟩
  rw [Nat.add_sub_cancel' hA] at h0
  exact extendHiJunk_inv a b bj alo blo bhi ahi _ _
    (extendLoJunk_inv a b bj alo blo bhi ahi _ _
      (extendHi_inv a b bj alo blo bhi ahi _ _
        (extendLo_inv a b bj alo blo bhi ahi _ _ h0)))

/-! ## Claim C1: identity comparison

For `align(L, L)` we show `find_longest_match` over the full ranges returns
the whole diagonal `(0, 0, len(L))`, even when the `autojunk` popularity
filter has purged entries from `b2j`: the j2len dynamic program only ever
records diagonal bests (an off-diagonal chain never strictly beats the
diagonal chains available at or before its row), and the non-junk extension
loops then extend any diagonal best to the full range because `bjunk` is
empty and the two sequences agree everywhere. -/

theorem b2jList_content (b : List String) (x : String) (j : Nat)
    (hj : j ∈ b2jList b x) : b.getD j "" = x := by
  unfold b2jList at hj
  split at hj
  · simp at hj
  · simp only [List.mem_filter, List.mem_range] at hj
    exact eq_of_beq hj.2

theorem mem_b2jList {b : List String} {x : String} {j : Nat} :
    j ∈ b2jList b x ↔ isPopular b x = false ∧ j < b.length ∧ b.getD j "" = x := by
  unfold b2jList
  by_cases h : isPopular b x
  · simp [h]
  · rw [if_neg h]
    simp only [List.mem_filter, List.mem_range, beq_iff_eq]
    constructor
    · rintro ⟨hj, hx⟩
      exact ⟨Bool.eq_false_iff.mpr h, hj, hx⟩
    · rintro ⟨-, hj, hx⟩
      exact ⟨hj, hx⟩

theorem b2jList_sorted (b : List String) (x : String) :
    List.Pairwise (fun p q => p < q) (b2jList b x) := by
  unfold b2jList
  split
  · exact List.Pairwise.nil
  · exact (List.pairwise_lt_range _).filter _

/-- The chain value `j2len[j]` computed at row `i`, column `j`, when the two
sequences are the same list `L` and `b2j = b2jList L`. -/
def chainC (L : List String) : Nat → Nat → Nat
  | 0, j => if j ∈ b2jList L (L.getD 0 "") then 1 else 0
  | i + 1, j =>
    if j ∈ b2jList L (L.getD (i + 1) "") then
      (if j = 0 then 0 else chainC L i (j - 1)) + 1
    else 0

/-- The previous row's chain values: all zero before the first row. -/
def chainPrev (L : List String) : Nat → Nat → Nat
  | 0, _ => 0
  | i + 1, j => chainC L i j

theorem chainC_eq_zero_of_not_matched (L : List String) (i j : Nat)
    (hm : j ∉ b2jList L (L.getD i "")) : chainC L i j = 0 := by
  cases i with
  | zero => rw [chainC, if_neg hm]
  | succ i' => rw [chainC, if_neg hm]

theorem chainC_eq_of_matched (L : List String) (i j : Nat)
    (hm : j ∈ b2jList L (L.getD i "")) :
    chainC L i j = (if j = 0 then 0 else chainPrev L i (j - 1)) + 1 := by
  cases i with
  | zero =>
    rw [chainC, if_pos hm]
    by_cases hj : j = 0 <;> simp [hj, chainPrev]
  | succ i' => rw [chainC, if_pos hm]; rfl

theorem self_matched_diag (L : List String) (i j : Nat)
    (hm : j ∈ b2jList L (L.getD i "")) (hi : i < L.length) :
    i ∈ b2jList L (L.getD i "") := by
  obtain ⟨hpop, -, -⟩ := mem_b2jList.mp hm
  exact mem_b2jList.mpr ⟨hpop, hi, rfl⟩

theorem chainC_gt_le_diag (L : List String) :
    ∀ i j, i < j → chainC L i j ≤ chainC L i i := by
  intro i
  induction i with
  | zero =>
    intro j hij
    by_cases hm : j ∈ b2jList L (L.getD 0 "")
    · have h0 : (0 : Nat) ∈ b2jList L (L.getD 0 "") := by
        obtain ⟨hpop, hjn, -⟩ := mem_b2jList.mp hm
        exact mem_b2jList.mpr ⟨hpop, by omega, rfl⟩
      rw [chainC, if_pos hm, chainC, if_pos h0]
    · rw [chainC, if_neg hm]
      exact Nat.zero_le _
  | succ i ih =>
    intro j hij
    by_cases hm : j ∈ b2jList L (L.getD (i + 1) "")
    · have hd : (i + 1) ∈ b2jList L (L.getD (i + 1) "") := by
        obtain ⟨hpop, hjn, -⟩ := mem_b2jList.mp hm
        exact mem_b2jList.mpr ⟨hpop, by omega, rfl⟩
      rw [chainC, if_pos hm, chainC, if_pos hd]
      rw [if_neg (by omega : ¬ j = 0), if_neg (by omega : ¬ i + 1 = 0)]
      simp only [Nat.add_sub_cancel]
      have hih := ih (j - 1) (by omega)
      omega
    · rw [chainC, if_neg hm]
      exact Nat.zero_le _

theorem chainC_lt_le_diag (L : List String) :
    ∀ i j, j < i → chainC L i j ≤ chainC L j j := by
  intro i
  induction i with
  | zero => intro j hj; omega
  | succ i ih =>
    intro j hj
    by_cases hm : j ∈ b2jList L (L.getD (i + 1) "")
    · obtain ⟨hpop, hjn, hjx⟩ := mem_b2jList.mp hm
      have hdj : j ∈ b2jList L (L.getD j "") := by
        refine mem_b2jList.mpr ⟨?_, hjn, rfl⟩
        rwa [hjx]
      match j, hdj, hm, hj with
      | 0, hdj, hm, hj =>
        have h1 : chainC L (i + 1) 0 = 1 := by
          rw [chainC, if_pos hm]
          simp
        have h2 : chainC L 0 0 = 1 := by
          rw [chainC, if_pos hdj]
        rw [h1, h2]
      | j' + 1, hdj, hm, hj =>
        rw [chainC, if_pos hm, if_neg (by omega : ¬ j' + 1 = 0)]
        rw [chainC, if_pos hdj, if_neg (by omega : ¬ j' + 1 = 0)]
        simp only [Nat.add_sub_cancel]
        have h1 : chainC L i j' ≤ chainC L j' j' := ih j' (by omega)
        omega
    · rw [chainC, if_neg hm]
      exact Nat.zero_le _

theorem innerLoop_self (L : List String) (i : Nat) (old : Nat → Nat)
    (hold : ∀ j, old j = chainPrev L i j) :
    ∀ (js : List Nat) (new : Nat → Nat) (best : Match),
      List.Pairwise (fun p q => p < q) js →
      (∀ j ∈ js, j ∈ b2jList L (L.getD i "")) →
      (∀ j, new j = if j ∈ b2jList L (L.getD i "") ∧ j ∉ js then chainC L i j else 0) →
      best.i = best.j →
      (∀ i', i' < i → chainC L i' i' ≤ best.size) →
      (i ∈ js ∨ chainC L i i ≤ best.size) →
      (∀ j, (innerLoop 0 L.length i old js new best).1 j = chainC L i j) ∧
      (innerLoop 0 L.length i old js new best).2.i =
        (innerLoop 0 L.length i old js new best).2.j ∧
      (∀ i', i' < i + 1 →
        chainC L i' i' ≤ (innerLoop 0 L.length i old js new best).2.size) := by
  intro js
  induction js with
  | nil =>
    intro new best _ _ hnew hdiag hH hdisj
    rw [innerLoop]
    refine ⟨?_, hdiag, ?_⟩
    · intro j
      show new j = chainC L i j
      rw [hnew j]
      by_cases hm : j ∈ b2jList L (L.getD i "")
      · rw [if_pos ⟨hm, List.not_mem_nil j⟩]
      · rw [if_neg (fun hc => hm hc.1), chainC_eq_zero_of_not_matched L i j hm]
    · intro i' hi'
      rcases Nat.lt_or_ge i' i with hlt | hge
      · exact hH i' hlt
      · have : i' = i := by omega
        subst this
        rcases hdisj with hmem | hb
        · exact absurd hmem (List.not_mem_nil i')
        · exact hb
  | cons j js ih =>
    intro new best hsort hjs hnew hdiag hH hdisj
    have hm : j ∈ b2jList L (L.getD i "") := hjs j (List.mem_cons_self _ _)
    obtain ⟨hpop, hjn, hjx⟩ := mem_b2jList.mp hm
    have hhead : ∀ y ∈ js, j < y := (List.pairwise_cons.mp hsort).1
    have hjnotin : j ∉ js := fun hc => lt_irrefl j (hhead j hc)
    simp only [innerLoop]
    rw [if_neg (Nat.not_lt_zero j), if_neg (by omega : ¬ L.length ≤ j)]
    have hK : (if j = 0 then 0 else old (j - 1)) + 1 = chainC L i j := by
      rw [chainC_eq_of_matched L i j hm]
      congr 1
      by_cases hj0 : j = 0 <;> simp [hj0, hold]
    rw [hK]
    have hnew2 : ∀ x, (fun x => if x = j then chainC L i j else new x) x =
        if x ∈ b2jList L (L.getD i "") ∧ x ∉ js then chainC L i x else 0 := by
      intro x
      beta_reduce
      by_cases hxj : x = j
      · subst hxj
        rw [if_pos rfl, if_pos ⟨hm, hjnotin⟩]
      · rw [if_neg hxj, hnew x]
        by_cases hx1 : x ∈ b2jList L (L.getD i "")
        · by_cases hx2 : x ∈ js
          · rw [if_neg (fun hc => hc.2 (List.mem_cons_of_mem _ hx2)),
              if_neg (fun hc => hc.2 hx2)]
          · rw [if_pos ⟨hx1, fun hc => (List.mem_cons.mp hc).elim hxj hx2⟩,
              if_pos ⟨hx1, hx2⟩]
        · rw [if_neg (fun hc => hx1 hc.1), if_neg (fun hc => hx1 hc.1)]
    have hjs2 : ∀ y ∈ js, y ∈ b2jList L (L.getD i "") :=
      fun y hy => hjs y (List.mem_cons_of_mem _ hy)
    rcases Nat.lt_trichotomy j i with hji | hji | hji
    · -- j < i : the chain at (i, j) cannot beat the diagonal at row j
      have hle : chainC L i j ≤ best.size :=
        le_trans (chainC_lt_le_diag L i j hji) (hH j hji)
      rw [if_neg (by omega : ¬ best.size < chainC L i j)]
      refine ih _ best (List.Pairwise.of_cons hsort) hjs2 hnew2 hdiag hH ?_
      rcases hdisj with hmem | hb
      · rcases List.mem_cons.mp hmem with he | hmem2
        · omega
        · exact Or.inl hmem2
      · exact Or.inr hb
    · -- j = i : any strict improvement happens on the diagonal
      subst hji
      by_cases hup : best.size < chainC L j j
      · rw [if_pos hup]
        refine ih _ _ (List.Pairwise.of_cons hsort) hjs2 hnew2 rfl ?_ ?_
        · intro i' hi'
          exact le_trans (hH i' hi') (Nat.le_of_lt hup)
        · exact Or.inr le_rfl
      · rw [if_neg hup]
        refine ih _ best (List.Pairwise.of_cons hsort) hjs2 hnew2 hdiag hH ?_
        exact Or.inr (by omega)
    · -- j > i : the diagonal entry was already processed (or never matched)
      have hnotin : i ∉ j :: js := by
        intro hmem
        rcases List.mem_cons.mp hmem with he | hmem2
        · omega
        · exact absurd (hhead i hmem2) (by omega)
      have hb : chainC L i i ≤ best.size := hdisj.resolve_left hnotin
      have hle : chainC L i j ≤ best.size :=
        le_trans (chainC_gt_le_diag L i j hji) hb
      rw [if_neg (by omega : ¬ best.size < chainC L i j)]
      refine ih _ best (List.Pairwise.of_cons hsort) hjs2 hnew2 hdiag hH ?_
      exact Or.inr hb

theorem rowLoop_self (L : List String) :
    ∀ (n i : Nat) (j2len : Nat → Nat) (best : Match),
      (∀ j, j2len j = chainPrev L i j) →
      best.i = best.j →
      (∀ i', i' < i → chainC L i' i' ≤ best.size) →
      (rowLoop L (b2jList L) 0 L.length (List.range' i n) j2len best).2.i =
        (rowLoop L (b2jList L) 0 L.length (List.range' i n) j2len best).2.j := by
  intro n
  induction n with
  | zero => intro i j2len best _ hdiag _; simpa [rowLoop] using hdiag
  | succ n ih =>
    intro i j2len best hold hdiag hH
    rw [List.range'_succ, rowLoop]
    have hdisj : i ∈ b2jList L (L.getD i "") ∨ chainC L i i ≤ best.size := by
      by_cases hm : i ∈ b2jList L (L.getD i "")
      · exact Or.inl hm
      · exact Or.inr (by rw [chainC_eq_zero_of_not_matched L i i hm]; omega)
    have hinner := innerLoop_self L i j2len hold (b2jList L (L.getD i ""))
      (fun _ => 0) best (b2jList_sorted L _) (fun j hj => hj)
      (fun j => by by_cases hm : j ∈ b2jList L (L.getD i "") <;> simp [hm])
      hdiag hH hdisj
    exact ih (i + 1) _ _ (fun j => hinner.1 j) hinner.2.1 hinner.2.2

theorem extendLo_self_diag (L : List String) :
    ∀ (fuel d s : Nat), d ≤ fuel →
      extendLo L L (fun _ => false) 0 0 fuel ⟨d, d, s⟩ = ⟨0, 0, s + d⟩ := by
  intro fuel
  induction fuel with
  | zero =>
    intro d s hd
    have : d = 0 := by omega
    subst this
    rfl
  | succ f ih =>
    intro d s hd
    cases d with
    | zero => rw [extendLo]; simp
    | succ d' =>
      rw [extendLo, if_pos (by simp)]
      have h := ih d' (s + 1) (by omega)
      simp only [Nat.add_sub_cancel] at h ⊢
      rw [h]
      congr 1
      omega

theorem extendHi_self_diag (L : List String) :
    ∀ (fuel s : Nat), L.length ≤ s + fuel → s ≤ L.length →
      extendHi L L (fun _ => false) L.length L.length fuel ⟨0, 0, s⟩ =
        ⟨0, 0, L.length⟩ := by
  intro fuel
  induction fuel with
  | zero =>
    intro s h1 h2
    have : s = L.length := by omega
    subst this
    rfl
  | succ f ih =>
    intro s h1 h2
    by_cases hs : s < L.length
    · rw [extendHi, if_pos (by simp [hs])]
      exact ih (s + 1) (by omega) (by omega)
    · have he : s = L.length := by omega
      subst he
      rw [extendHi, if_neg (by simp)]

theorem extendLoJunk_noJunk (a b : List String) (alo blo : Nat) :
    ∀ (fuel : Nat) (m : Match),
      extendLoJunk a b (fun _ => false) alo blo fuel m = m := by
  intro fuel m
  cases fuel with
  | zero => rfl
  | succ f => rw [extendLoJunk]; simp

theorem extendHiJunk_noJunk (a b : List String) (ahi bhi : Nat) :
    ∀ (fuel : Nat) (m : Match),
      extendHiJunk a b (fun _ => false) ahi bhi fuel m = m := by
  intro fuel m
  cases fuel with
  | zero => rfl
  | succ f => rw [extendHiJunk]; simp

theorem flm_self (L : List String) :
    findLongestMatch L L (b2jList L) (fun _ => false) 0 L.length 0 L.length =
      ⟨0, 0, L.length⟩ := by
  simp only [findLongestMatch, Nat.sub_zero]
  have hbb : BestBound L L 0 0 L.length (0 + L.length)
      (rowLoop L (b2jList L) 0 L.length (List.range' 0 L.length)
        (fun _ => 0) ⟨0, 0, 0⟩).2 :=
    rowLoop_inv L L (b2jList L) (fun x j hj => b2jList_content L x j hj)
      0 0 L.length L.length 0 (fun _ => 0) ⟨0, 0, 0⟩ le_rfl
      (fun j hj => absurd rfl hj)
      ⟨le_rfl, le_rfl, le_rfl, by simp, fun t ht => absurd ht (Nat.not_lt_zero t)⟩
  have hdiag : (rowLoop L (b2jList L) 0 L.length (List.range' 0 L.length)
      (fun _ => 0) ⟨0, 0, 0⟩).2.i =
      (rowLoop L (b2jList L) 0 L.length (List.range' 0 L.length)
        (fun _ => 0) ⟨0, 0, 0⟩).2.j :=
    rowLoop_self L L.length 0 (fun _ => 0) ⟨0, 0, 0⟩ (fun j => rfl) rfl
      (fun i' hi' => absurd hi' (Nat.not_lt_zero i'))
  rcases hq : (rowLoop L (b2jList L) 0 L.length (List.range' 0 L.length)
      (fun _ => 0) ⟨0, 0, 0⟩).2 with ⟨d, dj, s⟩
  rw [hq] at hbb hdiag
  simp only at hdiag
  subst hdiag
  have hds : d + s ≤ L.length := by
    have := hbb.2.2.1
    simpa using this
  simp only
  rw [extendLo_self_diag L d d s le_rfl]
  rw [extendHi_self_diag L L.length (s + d) (by omega) (by omega)]
  rw [extendLoJunk_noJunk, extendHiJunk_noJunk]

theorem getDiffOpcodes_self (L : List String) (h : L ≠ []) :
    getDiffOpcodes L L = [⟨Tag.equal, 0, L.length, 0, L.length⟩] := by
  have hlen : 0 < L.length := List.length_pos.mpr h
  unfold getDiffOpcodes getMatchingBlocks
  simp only [processQueue, flm_self, ne_eq]
  rw [if_pos (by omega : ¬ L.length = 0)]
  rw [if_neg (by omega : ¬ (0 < 0 ∧ 0 < 0)),
    if_neg (by omega : ¬ (0 + L.length < L.length ∧ 0 + L.length < L.length))]
  rw [processQueue_nil]
  simp only [List.insertionSort, List.orderedInsert]
  rw [show collapseAux 0 0 0 [⟨0, 0, L.length⟩] = [⟨0, 0, L.length⟩] by
    rw [collapseAux, if_pos (by simp), collapseAux, if_pos (by omega : ¬ 0 + L.length = 0)]
    simp]
  simp only [List.cons_append, List.nil_append, opcodesLoop]
  rw [if_neg (by omega : ¬ (0 < 0 ∧ 0 < 0)), if_neg (by omega : ¬ (0:Nat) < 0),
    if_neg (by omega : ¬ (0:Nat) < 0)]
  rw [if_pos (by omega : ¬ L.length = 0)]
  simp only [List.nil_append, Nat.zero_add, opcodesLoop]
  rw [if_neg (by omega : ¬ (L.length < L.length ∧ L.length < L.length)),
    if_neg (by omega : ¬ L.length < L.length), if_neg (by omega : ¬ L.length < L.length)]
  simp

/-- C1: for any non-empty sequence of lines `L`, `get_diff_opcodes(L, L)`
yields exactly one Equal run covering all of `L`:
`[('equal', 0, len(L), 0, len(L))]`. -/
theorem c1_identity (L : List String) (h : L ≠ []) :
    getDiffOpcodes L L = [⟨Tag.equal, 0, L.length, 0, L.length⟩] :=
  getDiffOpcodes_self L h

/-- Witness for C1 at a concrete one-line sequence. -/
theorem c1_witness :
    (["x"] : List String) ≠ [] ∧
    getDiffOpcodes ["x"] ["x"] = [⟨Tag.equal, 0, 1, 0, 1⟩] :=
  ⟨by decide, c1_identity ["x"] (by decide)⟩

/-! ## Claim C2: the opcodes partition both sequences

The work queue of `get_matching_blocks` only ever holds rectangles that are
pairwise comparable (one entirely before the other in both coordinates), and
every emitted block lies inside the rectangle it was found in; after the
lexicographic sort the blocks are therefore consecutive in both coordinates,
the adjacent merge preserves that, and the opcode loop closes every gap, so
the opcode ranges chain from 0 to the length of each sequence. -/

/-- The rectangle spanned by a matching block. -/
def boxOf (m : Match) : Rangeq :=
  ⟨m.i, m.i + m.size, m.j, m.j + m.size⟩

/-- `r1` lies entirely before `r2` in both coordinates. -/
def RBefore (r1 r2 : Rangeq) : Prop :=
  r1.ahi ≤ r2.alo ∧ r1.bhi ≤ r2.blo

/-- Two rectangles are comparable: one lies before the other. -/
def RComp (r1 r2 : Rangeq) : Prop :=
  RBefore r1 r2 ∨ RBefore r2 r1

/-- `s` is contained in `r`. -/
def SubRange (r s : Rangeq) : Prop :=
  r.alo ≤ s.alo ∧ s.ahi ≤ r.ahi ∧ r.blo ≤ s.blo ∧ s.bhi ≤ r.bhi

/-- A well-formed queue rectangle within the global box. -/
def GoodRange (la lb : Nat) (r : Rangeq) : Prop :=
  r.alo ≤ r.ahi ∧ r.blo ≤ r.bhi ∧ r.ahi ≤ la ∧ r.bhi ≤ lb

/-- The region of a matching block matches elementwise. -/
def MatchContent (a b : List String) (m : Match) : Prop :=
  ∀ t, t < m.size → a.getD (m.i + t) "" = b.getD (m.j + t) ""

theorem RComp_symm {r1 r2 : Rangeq} (h : RComp r1 r2) : RComp r2 r1 :=
  h.symm

theorem SubRange_trans {r s t : Rangeq} (h1 : SubRange r s) (h2 : SubRange s t) :
    SubRange r t := by
  unfold SubRange at *
  omega

theorem rcomp_sub_left {r s t : Rangeq} (hsub : SubRange r s) (h : RComp r t) :
    RComp s t := by
  unfold SubRange RComp RBefore at *
  omega

theorem measureQ_cons (r : Rangeq) (q : List Rangeq) :
    measureQ (r :: q) = (r.ahi - r.alo + (r.bhi - r.blo) + 1) + measureQ q := by
  simp [measureQ]

theorem processQueue_inv (a b : List String) (b2j : String → List Nat)
    (hb2j : ∀ x j, j ∈ b2j x → b.getD j "" = x) :
    ∀ (fuel : Nat) (q : List Rangeq),
      measureQ q ≤ fuel →
      (∀ r ∈ q, GoodRange a.length b.length r) →
      List.Pairwise RComp q →
      (∀ m ∈ processQueue a b b2j fuel q,
        m.size ≠ 0 ∧ MatchContent a b m ∧ ∃ r ∈ q, SubRange r (boxOf m)) ∧
      List.Pairwise (fun m1 m2 => RComp (boxOf m1) (boxOf m2))
        (processQueue a b b2j fuel q) := by
  intro fuel
  induction fuel with
  | zero =>
    intro q _ _ _
    exact ⟨fun m hm => absurd hm (List.not_mem_nil m), List.Pairwise.nil⟩
  | succ fuel ih =>
    intro q hmeas hgood hpair
    match q with
    | [] => exact ⟨fun m hm => absurd hm (List.not_mem_nil m), List.Pairwise.nil⟩
    | r :: rest =>
      simp only [processQueue]
      have hgr := hgood r (List.mem_cons_self _ _)
      obtain ⟨hg1, hg2, hg3, hg4⟩ := hgr
      have hbb := flm_inv a b b2j hb2j (fun _ => false) r.alo r.ahi r.blo r.bhi hg1 hg2
      set m := findLongestMatch a b b2j (fun _ => false) r.alo r.ahi r.blo r.bhi
        with hmdef
      obtain ⟨hmi, hmj, hmia, hmjb, hcont⟩ := hbb
      have hsubm : SubRange r (boxOf m) := ⟨hmi, hmia, hmj, hmjb⟩
      have hresthead : ∀ r' ∈ rest, RComp r r' := (List.pairwise_cons.mp hpair).1
      have hresttail : List.Pairwise RComp rest := (List.pairwise_cons.mp hpair).2
      have hrestgood : ∀ r' ∈ rest, GoodRange a.length b.length r' :=
        fun r' hr' => hgood r' (List.mem_cons_of_mem _ hr')
      by_cases hsz : m.size ≠ 0
      · rw [if_pos hsz]
        have hmain : ∀ q2 : List Rangeq,
            measureQ q2 ≤ fuel →
            (∀ r' ∈ q2, GoodRange a.length b.length r') →
            List.Pairwise RComp q2 →
            (∀ r' ∈ q2, RComp r' (boxOf m) ∧ (SubRange r r' ∨ r' ∈ rest)) →
            (∀ m' ∈ m :: processQueue a b b2j fuel q2,
              m'.size ≠ 0 ∧ MatchContent a b m' ∧
                ∃ rr ∈ r :: rest, SubRange rr (boxOf m')) ∧
            List.Pairwise (fun m1 m2 => RComp (boxOf m1) (boxOf m2))
              (m :: processQueue a b b2j fuel q2) := by
          intro q2 hm2 hg2 hp2 hrel
          have hrec := ih q2 hm2 hg2 hp2
          constructor
          · intro m' hm'
            rcases List.mem_cons.mp hm' with rfl | hm'
            · exact ⟨hsz, hcont, r, List.mem_cons_self _ _, hsubm⟩
            · obtain ⟨h1, h2, rr, hrr, h3⟩ := hrec.1 m' hm'
              rcases (hrel rr hrr).2 with hsub | hmem
              · exact ⟨h1, h2, r, List.mem_cons_self _ _, SubRange_trans hsub h3⟩
              · exact ⟨h1, h2, rr, List.mem_cons_of_mem _ hmem, h3⟩
          · refine List.Pairwise.cons ?_ hrec.2
            intro m' hm'
            obtain ⟨-, -, rr, hrr, h3⟩ := hrec.1 m' hm'
            exact RComp_symm (rcomp_sub_left h3 ((hrel rr hrr).1))
        set Lq := Rangeq.mk r.alo m.i r.blo m.j with hLq
        set Rq := Rangeq.mk (m.i + m.size) r.ahi (m.j + m.size) r.bhi with hRq
        have hLgood : GoodRange a.length b.length Lq := by
          unfold GoodRange SubRange boxOf at *
          simp only [hLq] at *
          refine ⟨hmi, hmj, by omega, by omega⟩
        have hRgood : GoodRange a.length b.length Rq := by
          unfold GoodRange SubRange boxOf at *
          simp only [hRq] at *
          exact ⟨by omega, by omega, by omega, by omega⟩
        have hLsub : SubRange r Lq := by
          unfold SubRange boxOf at *
          simp [hLq]
          omega
        have hRsub : SubRange r Rq := by
          unfold SubRange boxOf at *
          simp [hRq]
          omega
        have hLm : RComp Lq (boxOf m) := by
          unfold RComp RBefore boxOf
          simp [hLq]
        have hRm : RComp Rq (boxOf m) := by
          unfold RComp RBefore boxOf
          simp [hRq]
        have hLR : RComp Rq Lq := by
          unfold RComp RBefore
          simp only [hLq, hRq]
          right
          exact ⟨Nat.le_add_right _ _, Nat.le_add_right _ _⟩
        have hrestrel : ∀ r' ∈ rest, RComp r' (boxOf m) :=
          fun r' hr' => RComp_symm (rcomp_sub_left hsubm (hresthead r' hr'))
        have hLrest : ∀ r' ∈ rest, RComp Lq r' :=
          fun r' hr' => rcomp_sub_left hLsub (hresthead r' hr')
        have hRrest : ∀ r' ∈ rest, RComp Rq r' :=
          fun r' hr' => rcomp_sub_left hRsub (hresthead r' hr')
        have hmeasr : measureQ (r :: rest) ≤ fuel + 1 := hmeas
        rw [measureQ_cons] at hmeasr
        by_cases hc1 : r.alo < m.i ∧ r.blo < m.j
        · rw [if_pos hc1]
          by_cases hc2 : m.i + m.size < r.ahi ∧ m.j + m.size < r.bhi
          · rw [if_pos hc2]
            refine hmain (Rq :: Lq :: rest) ?_ ?_ ?_ ?_
            · rw [measureQ_cons, measureQ_cons]
              simp only [hLq, hRq]
              omega
            · intro r' hr'
              rcases List.mem_cons.mp hr' with rfl | hr'
              · exact hRgood
              · rcases List.mem_cons.mp hr' with rfl | hr'
                · exact hLgood
                · exact hrestgood r' hr'
            · refine List.Pairwise.cons ?_ (List.Pairwise.cons hLrest hresttail)
              intro r' hr'
              rcases List.mem_cons.mp hr' with rfl | hr'
              · exact hLR
              · exact hRrest r' hr'
            · intro r' hr'
              rcases List.mem_cons.mp hr' with rfl | hr'
              · exact ⟨hRm, Or.inl hRsub⟩
              · rcases List.mem_cons.mp hr' with rfl | hr'
                · exact ⟨hLm, Or.inl hLsub⟩
                · exact ⟨hrestrel r' hr', Or.inr hr'⟩
          · rw [if_neg hc2]
            refine hmain (Lq :: rest) ?_ ?_ ?_ ?_
            · rw [measureQ_cons]
              simp only [hLq]
              omega
            · intro r' hr'
              rcases List.mem_cons.mp hr' with rfl | hr'
              · exact hLgood
              · exact hrestgood r' hr'
            · exact List.Pairwise.cons hLrest hresttail
            · intro r' hr'
              rcases List.mem_cons.mp hr' with rfl | hr'
              · exact ⟨hLm, Or.inl hLsub⟩
              · exact ⟨hrestrel r' hr', Or.inr hr'⟩
        · rw [if_neg hc1]
          by_cases hc2 : m.i + m.size < r.ahi ∧ m.j + m.size < r.bhi
          · rw [if_pos hc2]
            refine hmain (Rq :: rest) ?_ ?_ ?_ ?_
            · rw [measureQ_cons]
              simp only [hRq]
              omega
            · intro r' hr'
              rcases List.mem_cons.mp hr' with rfl | hr'
              · exact hRgood
              · exact hrestgood r' hr'
            · exact List.Pairwise.cons hRrest hresttail
            · intro r' hr'
              rcases List.mem_cons.mp hr' with rfl | hr'
              · exact ⟨hRm, Or.inl hRsub⟩
              · exact ⟨hrestrel r' hr', Or.inr hr'⟩
          · rw [if_neg hc2]
            refine hmain rest ?_ hrestgood hresttail ?_
            · omega
            · intro r' hr'
              exact ⟨hrestrel r' hr', Or.inr hr'⟩
      · rw [if_neg hsz]
        have hrec := ih rest (by rw [measureQ_cons] at hmeas; omega) hrestgood hresttail
        refine ⟨?_, hrec.2⟩
        intro m' hm'
        obtain ⟨h1, h2, rr, hrr, h3⟩ := hrec.1 m' hm'
        exact ⟨h1, h2, rr, List.mem_cons_of_mem _ hrr, h3⟩

/-- Consecutiveness of a block list: each block starts at or after the running
position in both coordinates, stays within bounds, and advances the running
position to its end. -/
def BChain (la lb : Nat) : Nat → Nat → List Match → Prop
  | _, _, [] => True
  | x, y, m :: ms =>
    x ≤ m.i ∧ y ≤ m.j ∧ m.i + m.size ≤ la ∧ m.j + m.size ≤ lb ∧
    BChain la lb (m.i + m.size) (m.j + m.size) ms

/-- The gap-free partition property of an opcode list: each opcode starts
exactly at the running position in both coordinates, its ranges are
well-formed and bounded, and the final position is exactly the end of both
sequences. -/
def ChainCover (la lb : Nat) : Nat → Nat → List Opcode → Prop
  | x, y, [] => x = la ∧ y = lb
  | x, y, op :: ops =>
    op.i1 = x ∧ op.j1 = y ∧ x ≤ op.i2 ∧ y ≤ op.j2 ∧ op.i2 ≤ la ∧ op.j2 ≤ lb ∧
    ChainCover la lb op.i2 op.j2 ops

theorem bchain_of_pairwise (la lb : Nat) :
    ∀ (l : List Match) (x y : Nat),
      List.Pairwise (fun m1 m2 => m1.i + m1.size ≤ m2.i ∧ m1.j + m1.size ≤ m2.j) l →
      (∀ m ∈ l, m.i + m.size ≤ la ∧ m.j + m.size ≤ lb) →
      (∀ m ∈ l, x ≤ m.i ∧ y ≤ m.j) →
      BChain la lb x y l := by
  intro l
  induction l with
  | nil => intro x y _ _ _; trivial
  | cons m ms ih =>
    intro x y hp hb hxy
    obtain ⟨hhead, htail⟩ := List.pairwise_cons.mp hp
    refine ⟨(hxy m (List.mem_cons_self _ _)).1, (hxy m (List.mem_cons_self _ _)).2,
      (hb m (List.mem_cons_self _ _)).1, (hb m (List.mem_cons_self _ _)).2, ?_⟩
    exact ih _ _ htail (fun m' hm' => hb m' (List.mem_cons_of_mem _ hm'))
      (fun m' hm' => hhead m' hm')

theorem bchain_collapse (la lb : Nat) :
    ∀ (l : List Match) (i1 j1 k1 x y : Nat),
      x ≤ i1 → y ≤ j1 → i1 + k1 ≤ la → j1 + k1 ≤ lb →
      BChain la lb (i1 + k1) (j1 + k1) l →
      BChain la lb x y (collapseAux i1 j1 k1 l) := by
  intro l
  induction l with
  | nil =>
    intro i1 j1 k1 x y hx hy hila hjlb _
    rw [collapseAux]
    by_cases hk : k1 ≠ 0
    · rw [if_pos hk]
      exact ⟨hx, hy, hila, hjlb, trivial⟩
    · rw [if_neg hk]
      trivial
  | cons m ms ih =>
    intro i1 j1 k1 x y hx hy hila hjlb hch
    obtain ⟨h1, h2, h3, h4, h5⟩ := hch
    rw [collapseAux]
    by_cases hadj : i1 + k1 = m.i ∧ j1 + k1 = m.j
    · rw [if_pos hadj]
      refine ih i1 j1 (k1 + m.size) x y hx hy (by omega) (by omega) ?_
      rw [show i1 + (k1 + m.size) = m.i + m.size by omega,
        show j1 + (k1 + m.size) = m.j + m.size by omega]
      exact h5
    · rw [if_neg hadj]
      by_cases hk : k1 ≠ 0
      · rw [if_pos hk]
        simp only [List.singleton_append]
        exact ⟨hx, hy, hila, hjlb, ih m.i m.j m.size (i1 + k1) (j1 + k1) h1 h2 h3 h4 h5⟩
      · rw [if_neg hk]
        simp only [List.nil_append]
        exact ih m.i m.j m.size x y (by omega) (by omega) h3 h4 h5

theorem chainCover_opcodesLoop (la lb : Nat) :
    ∀ (l : List Match) (x y : Nat),
      BChain la lb x y l → x ≤ la → y ≤ lb →
      ChainCover la lb x y (opcodesLoop x y (l ++ [⟨la, lb, 0⟩])) := by
  intro l
  induction l with
  | nil =>
    intro x y _ hx hy
    simp only [List.nil_append]
    rw [opcodesLoop]
    dsimp only
    rw [show opcodesLoop (la + 0) (lb + 0) [] = [] from rfl]
    rw [if_neg (by omega : ¬ (0 : Nat) ≠ 0)]
    by_cases h1 : x < la ∧ y < lb
    · rw [if_pos h1]
      simp only [List.cons_append, List.nil_append, List.append_nil]
      exact ⟨rfl, rfl, le_of_lt h1.1, le_of_lt h1.2, le_rfl, le_rfl, rfl, rfl⟩
    · rw [if_neg h1]
      by_cases h2 : x < la
      · rw [if_pos h2]
        simp only [List.cons_append, List.nil_append, List.append_nil]
        exact ⟨rfl, rfl, le_of_lt h2, hy, le_rfl, le_rfl, rfl, rfl⟩
      · rw [if_neg h2]
        by_cases h3 : y < lb
        · rw [if_pos h3]
          simp only [List.cons_append, List.nil_append, List.append_nil]
          exact ⟨rfl, rfl, hx, le_of_lt h3, le_rfl, le_rfl, rfl, rfl⟩
        · rw [if_neg h3]
          simp only [List.nil_append, List.append_nil]
          exact ⟨by omega, by omega⟩
  | cons m ms ih =>
    intro x y hch hx hy
    obtain ⟨h1, h2, h3, h4, h5⟩ := hch
    rw [List.cons_append, opcodesLoop]
    have hrec := ih (m.i + m.size) (m.j + m.size) h5 h3 h4
    by_cases hsz : m.size ≠ 0
    · rw [if_pos hsz]
      by_cases hg1 : x < m.i ∧ y < m.j
      · rw [if_pos hg1]
        simp only [List.cons_append, List.nil_append]
        exact ⟨rfl, rfl, le_of_lt hg1.1, le_of_lt hg1.2,
          le_trans (Nat.le_add_right _ _) h3, le_trans (Nat.le_add_right _ _) h4,
          rfl, rfl, Nat.le_add_right _ _, Nat.le_add_right _ _, h3, h4, hrec⟩
      · rw [if_neg hg1]
        by_cases hg2 : x < m.i
        · rw [if_pos hg2]
          simp only [List.cons_append, List.nil_append]
          exact ⟨rfl, rfl, le_of_lt hg2, h2,
            le_trans (Nat.le_add_right _ _) h3, le_trans (Nat.le_add_right _ _) h4,
            rfl, rfl, Nat.le_add_right _ _, Nat.le_add_right _ _, h3, h4, hrec⟩
        · by_cases hg3 : y < m.j
          · rw [if_neg hg2, if_pos hg3]
            simp only [List.cons_append, List.nil_append]
            exact ⟨rfl, rfl, h1, le_of_lt hg3,
              le_trans (Nat.le_add_right _ _) h3, le_trans (Nat.le_add_right _ _) h4,
              rfl, rfl, Nat.le_add_right _ _, Nat.le_add_right _ _, h3, h4, hrec⟩
          · rw [if_neg hg2, if_neg hg3]
            simp only [List.nil_append]
            have hxi : x = m.i := by omega
            have hyj : y = m.j := by omega
            subst hxi
            subst hyj
            exact ⟨rfl, rfl, Nat.le_add_right _ _, Nat.le_add_right _ _, h3, h4, hrec⟩
    · rw [if_neg hsz]
      have hsz0 : m.size = 0 := by omega
      simp only [hsz0, Nat.add_zero] at hrec h3 h4 ⊢
      by_cases hg1 : x < m.i ∧ y < m.j
      · rw [if_pos hg1]
        simp only [List.cons_append, List.nil_append]
        exact ⟨rfl, rfl, le_of_lt hg1.1, le_of_lt hg1.2, h3, h4, hrec⟩
      · rw [if_neg hg1]
        by_cases hg2 : x < m.i
        · rw [if_pos hg2]
          simp only [List.cons_append, List.nil_append]
          exact ⟨rfl, rfl, le_of_lt hg2, h2, h3, h4, hrec⟩
        · by_cases hg3 : y < m.j
          · rw [if_neg hg2, if_pos hg3]
            simp only [List.cons_append, List.nil_append]
            exact ⟨rfl, rfl, h1, le_of_lt hg3, h3, h4, hrec⟩
          · rw [if_neg hg2, if_neg hg3]
            simp only [List.nil_append]
            rw [show x = m.i by omega, show y = m.j by omega]
            exact hrec

theorem chainCover_bounds (la lb : Nat) :
    ∀ (ops : List Opcode) (x y : Nat), ChainCover la lb x y ops →
      ∀ op ∈ ops, op.i1 ≤ op.i2 ∧ op.i2 ≤ la ∧ op.j1 ≤ op.j2 ∧ op.j2 ≤ lb := by
  intro ops
  induction ops with
  | nil => intro x y _ op hop; exact absurd hop (List.not_mem_nil op)
  | cons op0 ops ih =>
    intro x y hcc op hop
    obtain ⟨hi1, hj1, hxle, hyle, hila, hjlb, hrest⟩ := hcc
    rcases List.mem_cons.mp hop with rfl | hop
    · exact ⟨by omega, hila, by omega, hjlb⟩
    · exact ih _ _ hrest op hop

theorem chain_reconstruct_left (lines1 : List String) (lb : Nat) :
    ∀ (ops : List Opcode) (x y : Nat),
      ChainCover lines1.length lb x y ops →
      ops.flatMap (fun op => (lines1.drop op.i1).take (op.i2 - op.i1)) =
        lines1.drop x := by
  intro ops
  induction ops with
  | nil =>
    intro x y hcc
    rw [hcc.1, List.drop_length]
    rfl
  | cons op ops ih =>
    intro x y hcc
    obtain ⟨hi1, hj1, hxle, hyle, hila, hjlb, hrest⟩ := hcc
    rw [List.flatMap_cons, ih op.i2 op.j2 hrest, hi1]
    rw [show lines1.drop op.i2 = List.drop (op.i2 - x) (lines1.drop x) by
      rw [List.drop_drop, show x + (op.i2 - x) = op.i2 by omega]]
    exact List.take_append_drop _ _

theorem chain_reconstruct_right (lines2 : List String) (la : Nat) :
    ∀ (ops : List Opcode) (x y : Nat),
      ChainCover la lines2.length x y ops →
      ops.flatMap (fun op => (lines2.drop op.j1).take (op.j2 - op.j1)) =
        lines2.drop y := by
  intro ops
  induction ops with
  | nil =>
    intro x y hcc
    rw [hcc.2, List.drop_length]
    rfl
  | cons op ops ih =>
    intro x y hcc
    obtain ⟨hi1, hj1, hxle, hyle, hila, hjlb, hrest⟩ := hcc
    rw [List.flatMap_cons, ih op.i2 op.j2 hrest, hj1]
    rw [show lines2.drop op.j2 = List.drop (op.j2 - y) (lines2.drop y) by
      rw [List.drop_drop, show y + (op.j2 - y) = op.j2 by omega]]
    exact List.take_append_drop _ _

/-- Facts about the sorted block list of `get_matching_blocks`: every block is
nonempty, matches elementwise, stays in bounds, and the list is consecutive in
both coordinates. -/
theorem sortedBlocks_facts (a b : List String) :
    (∀ m ∈ List.insertionSort matchLe
        (processQueue a b (b2jList b) (a.length + b.length + 1)
          [⟨0, a.length, 0, b.length⟩]),
      m.size ≠ 0 ∧ MatchContent a b m ∧
        m.i + m.size ≤ a.length ∧ m.j + m.size ≤ b.length) ∧
    BChain a.length b.length 0 0
      (List.insertionSort matchLe
        (processQueue a b (b2jList b) (a.length + b.length + 1)
          [⟨0, a.length, 0, b.length⟩])) := by
  set blocks := processQueue a b (b2jList b) (a.length + b.length + 1)
    [⟨0, a.length, 0, b.length⟩] with hbdef
  have hin := processQueue_inv a b (b2jList b)
    (fun x j hj => b2jList_content b x j hj)
    (a.length + b.length + 1) [⟨0, a.length, 0, b.length⟩]
    (by rw [measureQ_cons]; simp [measureQ])
    (by
      intro r hr
      rw [List.mem_singleton] at hr
      subst hr
      exact ⟨Nat.zero_le _, Nat.zero_le _, le_rfl, le_rfl⟩)
    (List.pairwise_singleton _ _)
  have hblocks : ∀ m ∈ blocks, m.size ≠ 0 ∧ MatchContent a b m ∧
      m.i + m.size ≤ a.length ∧ m.j + m.size ≤ b.length := by
    intro m hm
    obtain ⟨h1, h2, r, hr, h3⟩ := hin.1 m hm
    rw [List.mem_singleton] at hr
    subst hr
    obtain ⟨-, s2, -, s4⟩ := h3
    exact ⟨h1, h2, s2, s4⟩
  have hsorted_mem : ∀ m ∈ List.insertionSort matchLe blocks,
      m.size ≠ 0 ∧ MatchContent a b m ∧
        m.i + m.size ≤ a.length ∧ m.j + m.size ≤ b.length :=
    fun m hm => hblocks m ((List.mem_insertionSort matchLe).mp hm)
  refine ⟨hsorted_mem, ?_⟩
  have hpairsorted : List.Pairwise (fun m1 m2 => RComp (boxOf m1) (boxOf m2))
      (List.insertionSort matchLe blocks) :=
    (List.Perm.pairwise_iff (fun h => RComp_symm h)
      (List.perm_insertionSort matchLe blocks)).mpr hin.2
  have hsorted := List.sorted_insertionSort matchLe blocks
  have hbefore : List.Pairwise
      (fun m1 m2 => m1.i + m1.size ≤ m2.i ∧ m1.j + m1.size ≤ m2.j)
      (List.insertionSort matchLe blocks) := by
    refine (List.Pairwise.and hsorted hpairsorted).imp_of_mem ?_
    intro m1 m2 h1 h2 hand
    obtain ⟨hle, hcomp⟩ := hand
    have hsz2 : m2.size ≠ 0 := (hsorted_mem m2 h2).1
    rcases hcomp with hb | hb
    · exact hb
    · exfalso
      obtain ⟨hb1, hb2⟩ := hb
      simp only [boxOf] at hb1 hb2
      unfold matchLe at hle
      omega
  exact bchain_of_pairwise a.length b.length _ 0 0 hbefore
    (fun m hm => ⟨(hsorted_mem m hm).2.2.1, (hsorted_mem m hm).2.2.2⟩)
    (fun m hm => ⟨Nat.zero_le _, Nat.zero_le _⟩)

/-- The opcode list of `get_diff_opcodes` is a gap-free chain covering both
sequences from 0 to their lengths. -/
theorem getDiffOpcodes_chainCover (lines1 lines2 : List String) :
    ChainCover lines1.length lines2.length 0 0 (getDiffOpcodes lines1 lines2) := by
  unfold getDiffOpcodes getMatchingBlocks
  have hf := sortedBlocks_facts lines1 lines2
  have hcoll := bchain_collapse lines1.length lines2.length _ 0 0 0 0 0
    le_rfl le_rfl (Nat.zero_le _) (Nat.zero_le _) hf.2
  exact chainCover_opcodesLoop lines1.length lines2.length _ 0 0 hcoll
    (Nat.zero_le _) (Nat.zero_le _)

/-- C2: for every pair of line sequences, the opcodes returned by the aligner
form a contiguous, gap-free, order-preserving partition of both sequences:
left ranges start at 0, each run's left start equals the previous run's left
end, the last left end equals `len(lines1)`, and concatenating the left
ranges reconstructs `lines1` in order; likewise on the right for `lines2`. -/
theorem c2_partition (lines1 lines2 : List String) :
    ChainCover lines1.length lines2.length 0 0 (getDiffOpcodes lines1 lines2) ∧
    (getDiffOpcodes lines1 lines2).flatMap
      (fun op => (lines1.drop op.i1).take (op.i2 - op.i1)) = lines1 ∧
    (getDiffOpcodes lines1 lines2).flatMap
      (fun op => (lines2.drop op.j1).take (op.j2 - op.j1)) = lines2 := by
  have hcc := getDiffOpcodes_chainCover lines1 lines2
  refine ⟨hcc, ?_, ?_⟩
  · have h := chain_reconstruct_left lines1 lines2.length _ 0 0 hcc
    simpa using h
  · have h := chain_reconstruct_right lines2 lines1.length _ 0 0 hcc
    simpa using h

/-! ## Claim C6: comparison outcome and exit codes -/

theorem collapse_content (a b : List String) :
    ∀ (l : List Match) (i1 j1 k1 : Nat),
      MatchContent a b ⟨i1, j1, k1⟩ →
      (∀ m ∈ l, MatchContent a b m) →
      ∀ m' ∈ collapseAux i1 j1 k1 l, MatchContent a b m' := by
  intro l
  induction l with
  | nil =>
    intro i1 j1 k1 hacc _ m' hm'
    rw [collapseAux] at hm'
    split at hm'
    · rw [List.mem_singleton] at hm'
      subst hm'
      exact hacc
    · exact absurd hm' (List.not_mem_nil m')
  | cons m ms ih =>
    intro i1 j1 k1 hacc hl m' hm'
    rw [collapseAux] at hm'
    split at hm'
    case isTrue hadj =>
      refine ih i1 j1 (k1 + m.size) ?_ (fun x hx => hl x (List.mem_cons_of_mem _ hx)) m' hm'
      intro t ht
      simp only at ht ⊢
      by_cases htk : t < k1
      · exact hacc t htk
      · have hm1 := hl m (List.mem_cons_self _ _) (t - k1) (by omega)
        rw [show i1 + t = m.i + (t - k1) by omega,
          show j1 + t = m.j + (t - k1) by omega]
        exact hm1
    case isFalse hadj =>
      rcases List.mem_append.mp hm' with hm1 | hm2
      · split at hm1
        · rw [List.mem_singleton] at hm1
          subst hm1
          exact hacc
        · exact absurd hm1 (List.not_mem_nil m')
      · exact ih m.i m.j m.size (hl m (List.mem_cons_self _ _))
          (fun x hx => hl x (List.mem_cons_of_mem _ hx)) m' hm2

theorem opcodesLoop_equal_block (l : List Match) :
    ∀ x y op, op ∈ opcodesLoop x y l → op.tag = Tag.equal →
      ∃ m ∈ l, op.i1 = m.i ∧ op.i2 = m.i + m.size ∧
        op.j1 = m.j ∧ op.j2 = m.j + m.size := by
  induction l with
  | nil => intro x y op hop _; exact absurd hop (List.not_mem_nil op)
  | cons m ms ih =>
    intro x y op hop htag
    simp only [opcodesLoop, List.append_assoc, List.mem_append] at hop
    rcases hop with hgap | heq | hrec
    · exfalso
      split at hgap
      · rw [List.mem_singleton] at hgap; rw [hgap] at htag; exact Tag.noConfusion htag
      · split at hgap
        · rw [List.mem_singleton] at hgap; rw [hgap] at htag; exact Tag.noConfusion htag
        · split at hgap
          · rw [List.mem_singleton] at hgap; rw [hgap] at htag; exact Tag.noConfusion htag
          · exact absurd hgap (List.not_mem_nil op)
    · split at heq
      · rw [List.mem_singleton] at heq
        subst heq
        exact ⟨m, List.mem_cons_self _ _, rfl, rfl, rfl, rfl⟩
      · exact absurd heq (List.not_mem_nil op)
    · obtain ⟨m', hm', h⟩ := ih _ _ op hrec htag
      exact ⟨m', List.mem_cons_of_mem _ hm', h⟩

theorem getDiffOpcodes_equal_content (lines1 lines2 : List String) (op : Opcode)
    (hop : op ∈ getDiffOpcodes lines1 lines2) (htag : op.tag = Tag.equal) :
    op.i2 - op.i1 = op.j2 - op.j1 ∧
    ∀ t, t < op.i2 - op.i1 →
      lines1.getD (op.i1 + t) "" = lines2.getD (op.j1 + t) "" := by
  have hf := sortedBlocks_facts lines1 lines2
  have hcollcont : ∀ m' ∈ collapseAux 0 0 0
      (List.insertionSort matchLe
        (processQueue lines1 lines2 (b2jList lines2)
          (lines1.length + lines2.length + 1)
          [⟨0, lines1.length, 0, lines2.length⟩])),
      MatchContent lines1 lines2 m' :=
    collapse_content lines1 lines2 _ 0 0 0
      (fun t ht => absurd ht (Nat.not_lt_zero t))
      (fun m hm => (hf.1 m hm).2.1)
  unfold getDiffOpcodes getMatchingBlocks at hop
  obtain ⟨m, hm, e1, e2, e3, e4⟩ := opcodesLoop_equal_block _ 0 0 op hop htag
  have hcm : MatchContent lines1 lines2 m := by
    rcases List.mem_append.mp hm with h | h
    · exact hcollcont m h
    · rw [List.mem_singleton] at h
      subst h
      exact fun t ht => absurd ht (Nat.not_lt_zero t)
  constructor
  · omega
  · intro t ht
    rw [e1, e3]
    exact hcm t (by omega)

theorem flatMap_congr_mem {α β : Type} {l : List α} {f g : α → List β}
    (h : ∀ x ∈ l, f x = g x) : l.flatMap f = l.flatMap g := by
  induction l with
  | nil => rfl
  | cons a l ih =>
    rw [List.flatMap_cons, List.flatMap_cons, h a (List.mem_cons_self _ _),
      ih (fun x hx => h x (List.mem_cons_of_mem _ hx))]

theorem slice_take_eq (lines1 lines2 : List String) (op : Opcode)
    (h1 : op.i1 ≤ op.i2) (h2 : op.i2 ≤ lines1.length)
    (h3 : op.j1 ≤ op.j2) (h4 : op.j2 ≤ lines2.length)
    (hlen : op.i2 - op.i1 = op.j2 - op.j1)
    (hcont : ∀ t, t < op.i2 - op.i1 →
      lines1.getD (op.i1 + t) "" = lines2.getD (op.j1 + t) "") :
    (lines1.drop op.i1).take (op.i2 - op.i1) =
      (lines2.drop op.j1).take (op.j2 - op.j1) := by
  apply List.ext_getElem
  · rw [List.length_take, List.length_take, List.length_drop, List.length_drop]
    omega
  · intro t ht1 ht2
    rw [List.getElem_take, List.getElem_drop, List.getElem_take, List.getElem_drop]
    have htb : t < op.i2 - op.i1 := by
      rw [List.length_take, List.length_drop] at ht1
      omega
    rw [← List.getD_eq_getElem lines1 "" (by omega),
      ← List.getD_eq_getElem lines2 "" (by omega)]
    exact hcont t htb

theorem all_equal_imp_eq (lines1 lines2 : List String)
    (h : ∀ op ∈ getDiffOpcodes lines1 lines2, op.tag = Tag.equal) :
    lines1 = lines2 := by
  have hcc := getDiffOpcodes_chainCover lines1 lines2
  have hbounds := chainCover_bounds lines1.length lines2.length _ 0 0 hcc
  have hL := chain_reconstruct_left lines1 lines2.length _ 0 0 hcc
  have hR := chain_reconstruct_right lines2 lines1.length _ 0 0 hcc
  rw [List.drop_zero] at hL hR
  have hmain : (getDiffOpcodes lines1 lines2).flatMap
      (fun op => (lines1.drop op.i1).take (op.i2 - op.i1)) =
      (getDiffOpcodes lines1 lines2).flatMap
        (fun op => (lines2.drop op.j1).take (op.j2 - op.j1)) := by
    apply flatMap_congr_mem
    intro op hop
    obtain ⟨hb1, hb2, hb3, hb4⟩ := hbounds op hop
    obtain ⟨hlen, hcont⟩ := getDiffOpcodes_equal_content lines1 lines2 op hop (h op hop)
    exact slice_take_eq lines1 lines2 op hb1 hb2 hb3 hb4 hlen hcont
  exact hL.symm.trans (hmain.trans hR)

theorem hasDifferences_eq_false_iff (ops : List Opcode) :
    hasDifferences ops = false ↔ ∀ op ∈ ops, op.tag = Tag.equal := by
  unfold hasDifferences
  rw [List.any_eq_false]
  constructor
  · intro h op hop
    have := h op hop
    simpa using this
  · intro h op hop
    simpa using h op hop

theorem hasDifferences_self (L : List String) :
    hasDifferences (getDiffOpcodes L L) = false := by
  by_cases h : L = []
  · subst h
    rw [getDiffOpcodes_nil_nil]
    rfl
  · rw [getDiffOpcodes_self L h]
    rfl

/-- C6: the comparison outcome is Identical iff every run in the aligner's
output has kind Equal (return value 0 instead of 1); `display_diff` returns 0
when comparing two identical readable files, 1 when the files differ in at
least one line, and 2 when a file path is missing or undecodable. -/
theorem c6_outcome_contract (l1 l2 : List String) (fs : FS) (f1 f2 : String)
    (L L1 L2 : List String) :
    (hasDifferences (getDiffOpcodes l1 l2) = false ↔
      ∀ op ∈ getDiffOpcodes l1 l2, op.tag = Tag.equal) ∧
    (fs f1 = ReadOutcome.ok L → fs f2 = ReadOutcome.ok L →
      display_diff fs f1 f2 = Except.ok (0, none)) ∧
    (fs f1 = ReadOutcome.ok L1 → fs f2 = ReadOutcome.ok L2 → L1 ≠ L2 →
      display_diff fs f1 f2 = Except.ok (1, none)) ∧
    ((fs f1 = ReadOutcome.notFound ∨ fs f1 = ReadOutcome.decodeError ∨
      (∃ ls, fs f1 = ReadOutcome.ok ls ∧
        (fs f2 = ReadOutcome.notFound ∨ fs f2 = ReadOutcome.decodeError))) →
      ∃ msg, display_diff fs f1 f2 = Except.ok (2, some msg)) := by
  refine ⟨hasDifferences_eq_false_iff _, ?_, ?_, display_diff_read_error fs f1 f2⟩
  · intro h1 h2
    unfold display_diff read_file
    rw [h1, h2]
    dsimp only
    rw [hasDifferences_self L]
    rfl
  · intro h1 h2 hne
    unfold display_diff read_file
    rw [h1, h2]
    dsimp only
    have hd : hasDifferences (getDiffOpcodes L1 L2) = true := by
      by_contra hc
      rw [Bool.not_eq_true] at hc
      exact hne (all_equal_imp_eq L1 L2 ((hasDifferences_eq_false_iff _).mp hc))
    rw [hd]
    rfl

/-- Witness for C6 at a concrete filesystem holding two one-line files. -/
theorem c6_witness :
    display_diff (fun p => if p = "a" then ReadOutcome.ok ["x"]
      else if p = "b" then ReadOutcome.ok ["y"] else ReadOutcome.notFound)
      "a" "a" = Except.ok (0, none) ∧
    display_diff (fun p => if p = "a" then ReadOutcome.ok ["x"]
      else if p = "b" then ReadOutcome.ok ["y"] else ReadOutcome.notFound)
      "a" "b" = Except.ok (1, none) ∧
    ∃ msg, display_diff (fun p => if p = "a" then ReadOutcome.ok ["x"]
      else if p = "b" then ReadOutcome.ok ["y"] else ReadOutcome.notFound)
      "a" "c" = Except.ok (2, some msg) := by
  refine ⟨?_, ?_, ?_⟩
  · exact (c6_outcome_contract [] [] _ "a" "a" ["x"] [] []).2.1 rfl rfl
  · exact (c6_outcome_contract [] [] _ "a" "b" [] ["x"] ["y"]).2.2.1 rfl rfl
      (by decide)
  · exact (c6_outcome_contract [] [] _ "a" "c" [] [] []).2.2.2
      (Or.inr (Or.inr ⟨["x"], rfl, Or.inl rfl⟩))

/-- Witness for C7 at concrete one-line sequences and a concrete filesystem
with two empty files. -/
theorem c7_witness :
    getDiffOpcodes [] [] = [] ∧
    display_diff (fun _ => ReadOutcome.ok []) "e1" "e2" = Except.ok (0, none) ∧
    getDiffOpcodes [] ["r"] = [⟨Tag.insert, 0, 0, 0, ["r"].length⟩] ∧
    getDiffOpcodes ["l"] [] = [⟨Tag.delete, 0, ["l"].length, 0, 0⟩] :=
  c7_emptiness ["l"] ["r"] (by decide) (by decide) (fun _ => ReadOutcome.ok [])
    "e1" "e2" rfl rfl

end MyFileDiff
